import Mathlib

/-!
Verification development for the PyWebScrapBook repository.

The repository ships two non-trivial subsystems described by its
specification: the HTML/XHTML tokenizing rewriter (`webscrapbook.util.html`,
class `HtmlRewriter` with `Markup`/`MarkupTag` tokens) and the composite
virtual-filesystem path resolver plus archive-aware file operations
(`webscrapbook.util.fs`, class `CPath` and the functions `mkdir`, `move`,
`copy`).  The Python sources of those two modules are not part of the
source snapshot (only their test suites are), so every definition below is
modelled from the specification document, with the behaviour pinned by the
unit tests `test/test_util_html.py` and `tests/test_util_fs.py` where the
specification's wording leaves freedom.  Each definition's doc comment
records what is modelled.

Strings are embedded as `List Char`; `String.data` injects test fixtures.
-/

set_option maxRecDepth 4096

/-! ## Basic character helpers -/

/-- ASCII lower-casing of a single character (Python `str.lower` restricted
to ASCII, which is all the tokenizer relies on for tag-name comparison). -/
def lcChar (c : Char) : Char :=
  if 'A' ≤ c ∧ c ≤ 'Z' then Char.ofNat (c.toNat + 32) else c

/-- Lower-case a character list. -/
def lcs (cs : List Char) : List Char := cs.map lcChar

/-- HTML whitespace. -/
def isWs (c : Char) : Bool :=
  c = ' ' || c = '\t' || c = '\n' || c = '\r' || c = '\x0c'

/-- ASCII letter. -/
def isAsciiAlpha (c : Char) : Bool :=
  ('a' ≤ c && c ≤ 'z') || ('A' ≤ c && c ≤ 'Z')

/-- Characters allowed in a tag name (letters, digits and the punctuation
accepted by the permissive HTML parser). -/
def isNameChar (c : Char) : Bool :=
  isAsciiAlpha c || ('0' ≤ c && c ≤ '9') || c = '-' || c = '.' || c = ':' || c = '_'

/-- Characters that may form an attribute name: anything but whitespace,
`=`, `>` and `/`. -/
def isAttrNameChar (c : Char) : Bool :=
  !(isWs c) && c ≠ '=' && c ≠ '>' && c ≠ '/'

/-! ## Generic scanning helpers

Every helper that consumes input returns the consumed prefix together with
the remaining suffix, so that `consumed ++ rest = input` is provable. -/

/-- Split `cs` at the first occurrence of the terminator `term`:
`some (pre, suf)` with `pre ++ term ++ suf = cs` and `pre` minimal,
`none` when `term` does not occur. -/
def findTerm (term : List Char) : List Char → Option (List Char × List Char)
  | [] => none
  | c :: rest =>
    if term.isPrefixOf (c :: rest) then some ([], (c :: rest).drop term.length)
    else
      match findTerm term rest with
      | some (pre, suf) => some (c :: pre, suf)
      | none => none

/-- Decide whether `t` occurs as a contiguous sublist of `cs`. -/
def hasSub (t : List Char) : List Char → Bool
  | [] => t.isEmpty
  | c :: rest => t.isPrefixOf (c :: rest) || hasSub t rest

/-- Whether the input begins a markup construct: `<` followed by `!`, `?`,
`/` or an ASCII letter (spec section 4.2, tag-open state). -/
def constructStart : List Char → Bool
  | '<' :: c :: _ => c = '!' || c = '?' || c = '/' || isAsciiAlpha c
  | _ => false

/-- Consume the maximal text run: characters up to (excluding) the first
position where a markup construct starts. -/
def takeText : List Char → List Char × List Char
  | [] => ([], [])
  | c :: rest =>
    if constructStart (c :: rest) then ([], c :: rest)
    else
      match takeText rest with
      | (pre, suf) => (c :: pre, suf)

/-! ## Markup tokens

Modelled from the spec: section 3 "Markup Token" and "Tag Model".  A token
records its kind-specific data, the `hidden` flag for synthesized tokens,
and `src`, the exact consumed source slice (`raw_source`), which `str`
prefers over the rendered form until a caller clears it. -/

/-- Tag data for start-tag and end-tag tokens (spec "Tag Model").  `tag`
keeps the original case; `isXhtml` is the per-rewriter flag copied onto
the token; `foreign` records that the tag lies in a foreign-content
(`svg`/`math`) subtree, which switches rendering to case preservation.
Attribute values are kept as the raw source characters (the specification
only prescribes escaping on rendering, not decoding on parsing, and no
claim below depends on character-reference decoding). -/
structure MarkupTag where
  tag : List Char
  attrs : List (List Char × Option (List Char))
  isSelfEnd : Bool
  isXhtml : Bool
  foreign : Bool
deriving Repr, DecidableEq

/-- Kind-specific data of a token.  Unknown `<!...>` declarations become
`comment` tokens (best-effort recovery); `<!DOCTYPE`-like declarations
(`decl`) and `<![...]>` marked sections (`markedSection`) both render by
stripping down to a plain `<!...>` construct. -/
inductive MarkupData where
  | text (content : List Char)
  | comment (content : List Char)
  | decl (content : List Char)
  | markedSection (content : List Char)
  | pi (content : List Char)
  | starttag (t : MarkupTag)
  | endtag (t : MarkupTag)
deriving Repr, DecidableEq

/-- A markup token: kind data, hidden flag, and the raw source slice. -/
structure Markup where
  data : MarkupData
  hidden : Bool
  src : Option (List Char)
deriving Repr, DecidableEq

/-- Attribute-value escaping (spec section 4.1): `&`, `<`, `>`, `"`. -/
def escapeVal (cs : List Char) : List Char :=
  cs.flatMap fun c =>
    if c = '&' then '&' :: 'a' :: 'm' :: 'p' :: [';']
    else if c = '<' then '&' :: 'l' :: 't' :: [';']
    else if c = '>' then '&' :: 'g' :: 't' :: [';']
    else if c = '"' then '&' :: 'q' :: 'u' :: 'o' :: 't' :: [';']
    else [c]

/-- Rendered tag/attribute name: verbatim in XHTML mode or inside a
foreign subtree, lower-cased otherwise (spec section 4.1). -/
def renderName (t : MarkupTag) (n : List Char) : List Char :=
  if t.isXhtml || t.foreign then n else lcs n

/-- Render one attribute: boolean attributes render bare in HTML mode and
as `name="name"` in XHTML mode; valued attributes as `name="escaped"`. -/
def renderAttr (t : MarkupTag) (a : List Char × Option (List Char)) : List Char :=
  match a.2 with
  | none =>
    if t.isXhtml then
      ' ' :: renderName t a.1 ++ '=' :: '"' :: renderName t a.1 ++ ['"']
    else
      ' ' :: renderName t a.1
  | some v => ' ' :: renderName t a.1 ++ '=' :: '"' :: escapeVal v ++ ['"']

/-- Render a start tag.  A self-ended tag renders with a space before the
slash (` />`), mirroring the reserialized forms pinned by the tests. -/
def renderStart (t : MarkupTag) : List Char :=
  '<' :: renderName t t.tag ++ (t.attrs.flatMap (renderAttr t)) ++
    (if t.isSelfEnd then ' ' :: '/' :: ['>'] else ['>'])

/-- Render an end tag. -/
def renderEnd (t : MarkupTag) : List Char :=
  '<' :: '/' :: renderName t t.tag ++ ['>']

/-- Rendered textual form of a token (`render()` in the spec). -/
def Markup.render (m : Markup) : List Char :=
  match m.data with
  | .text c => c
  | .comment c => '<' :: '!' :: '-' :: '-' :: c ++ '-' :: '-' :: ['>']
  | .decl c => '<' :: '!' :: c ++ ['>']
  | .markedSection c => '<' :: '!' :: c ++ ['>']
  | .pi c => '<' :: '?' :: c ++ ['>']
  | .starttag t => renderStart t
  | .endtag t => renderEnd t

/-- Python `str(markup)`: the raw source when still present, otherwise the
rendered form. -/
def Markup.str (m : Markup) : List Char :=
  match m.src with
  | some s => s
  | none => m.render

/-- Concatenation of `str` over the non-hidden tokens (the
"original-equivalent" reconstruction). -/
def nonHiddenStr (ms : List Markup) : List Char :=
  ms.flatMap fun m => if m.hidden then [] else m.str

/-- Concatenation of rendered forms over all tokens: the reserialized form
obtained after clearing every token's `src`. -/
def renderAll (ms : List Markup) : List Char :=
  ms.flatMap Markup.render

/-! ## The tokenizer

Modelled from the spec: section 4.2 "Markup Tokenizer / Rewriter".  The
Python module `webscrapbook/util/html.py` is absent from the snapshot; the
state machine below follows the spec's informal FSM, with the permissive
declaration handling of the underlying `HTMLParser` (unknown `<!...>`
forms become comments, `<!DOCTYPE` declarations and `<![...]>` marked
sections become declarations) pinned by `test/test_util_html.py`. -/

/-- Parse a markup declaration; the argument is the input after `<!`.
Comments `<!--...-->`, marked sections `<![...]>` (CDATA-like sections
terminate at `]]>`, conditional `if`/`else`/`endif` sections at `]>`),
`<!DOCTYPE ...>` declarations, and bogus declarations (comment tokens
ending at the first `>`).  An unterminated construct consumes to
end-of-input (graceful degradation, spec section 4.2 failure semantics).
This function parses a comment; the argument is the input after `<!--`. -/
def parseComment (r : List Char) : Markup × List Char :=
  match findTerm ['-', '-', '>'] r with
  | some (pre, suf) =>
    ({ data := .comment pre, hidden := false,
       src := some ('<' :: '!' :: '-' :: '-' :: pre ++ '-' :: '-' :: ['>']) }, suf)
  | none =>
    ({ data := .comment r, hidden := false,
       src := some ('<' :: '!' :: '-' :: '-' :: r) }, [])

/-- Terminator of a marked section `<![...]>`: CDATA-like section keywords
terminate at `]]>`, downlevel-conditional keywords (and unknown ones, as a
graceful fallback) at `]>`. -/
def sectionTerm (r : List Char) : List Char :=
  let kw := lcs (r.takeWhile isAsciiAlpha)
  if kw = "cdata".data || kw = "temp".data || kw = "ignore".data ||
      kw = "include".data || kw = "rcdata".data then
    ']' :: ']' :: ['>']
  else
    ']' :: ['>']

/-- Parse a marked section; the argument is the input after `<![`. -/
def parseSection (r : List Char) : Markup × List Char :=
  match findTerm (sectionTerm r) r with
  | some (pre, suf) =>
    ({ data := .markedSection pre, hidden := false,
       src := some ('<' :: '!' :: '[' :: pre ++ sectionTerm r) }, suf)
  | none =>
    ({ data := .markedSection r, hidden := false,
       src := some ('<' :: '!' :: '[' :: r) }, [])

/-- Parse a `<!DOCTYPE ...>` declaration; the argument is the input after
`<!` (beginning with the seven letters of `doctype` in either case). -/
def parseDoctype (rest : List Char) : Markup × List Char :=
  match findTerm ['>'] (rest.drop 7) with
  | some (pre, suf) =>
    ({ data := .decl (rest.take 7 ++ pre), hidden := false,
       src := some ('<' :: '!' :: (rest.take 7 ++ pre) ++ ['>']) }, suf)
  | none =>
    ({ data := .decl rest, hidden := false, src := some ('<' :: '!' :: rest) }, [])

/-- Parse a bogus declaration `<!...>` as a comment token ending at the
first `>` (best-effort recovery); the argument is the input after `<!`. -/
def parseBogusComment (rest : List Char) : Markup × List Char :=
  match findTerm ['>'] rest with
  | some (pre, suf) =>
    ({ data := .comment pre, hidden := false,
       src := some ('<' :: '!' :: pre ++ ['>']) }, suf)
  | none =>
    ({ data := .comment rest, hidden := false, src := some ('<' :: '!' :: rest) }, [])

def parseBang (rest : List Char) : Markup × List Char :=
  if rest.take 2 = ['-', '-'] then parseComment (rest.drop 2)
  else if rest.take 1 = ['['] then parseSection (rest.drop 1)
  else if lcs (rest.take 7) = "doctype".data then parseDoctype rest
  else parseBogusComment rest

/-- Parse a processing instruction; the argument is the input after `<?`.
Consumes through the first `>`. -/
def parsePI (rest : List Char) : Markup × List Char :=
  match findTerm ['>'] rest with
  | some (pre, suf) =>
    ({ data := .pi pre, hidden := false, src := some ('<' :: '?' :: pre ++ ['>']) }, suf)
  | none => ({ data := .pi rest, hidden := false, src := some ('<' :: '?' :: rest) }, [])

/-- Parse an end tag; the argument is the input after `</`.  Updates the
foreign-subtree depth counter when the closed tag matches the foreign
root. -/
def parseEnd (xhtml : Bool) (fg : Option (List Char × Nat)) (rest : List Char) :
    Markup × Option (List Char × Nat) × List Char :=
  let name := rest.takeWhile isNameChar
  let t : MarkupTag :=
    { tag := name, attrs := [], isSelfEnd := false, isXhtml := xhtml, foreign := fg.isSome }
  let fg' :=
    match fg with
    | some (root, d) =>
      if lcs name = root then (if d ≤ 1 then none else some (root, d - 1)) else fg
    | none => none
  match findTerm ['>'] (rest.dropWhile isNameChar) with
  | some (pre, suf) =>
    ({ data := .endtag t, hidden := false,
       src := some ('<' :: '/' :: name ++ pre ++ ['>']) }, fg', suf)
  | none =>
    ({ data := .endtag t, hidden := false, src := some ('<' :: '/' :: rest) }, fg', [])

/-- Attribute-list parsing (spec section 4.2 start-tag state: skip
whitespace, read a name up to `=`/whitespace/`>`/`/`, optionally `=` and a
quoted or unquoted value) until `>` or the self-closing `/>`.  Returns
`(attrs, selfEnd, consumed, rest)` with `consumed ++ rest` equal to the
input; the fuel argument exceeds the input length at every call site. -/
def parseAttrs : Nat → List Char → List (List Char × Option (List Char)) × Bool × List Char × List Char
  | 0, cs => ([], false, [], cs)
  | fuel + 1, cs =>
    let ws := cs.takeWhile isWs
    let cs1 := cs.dropWhile isWs
    match cs1 with
    | [] => ([], false, ws, [])
    | '>' :: r => ([], false, ws ++ ['>'], r)
    | '/' :: '>' :: r => ([], true, ws ++ '/' :: ['>'], r)
    | c :: r =>
      let an := cs1.takeWhile isAttrNameChar
      if an = [] then
        match parseAttrs fuel r with
        | (as, se, con, rest) => (as, se, ws ++ c :: con, rest)
      else
        let cs2 := cs1.dropWhile isAttrNameChar
        let cs3 := cs2.dropWhile isWs
        let ws2 := cs2.takeWhile isWs
        match cs3 with
        | '=' :: r3 =>
          let ws3 := r3.takeWhile isWs
          let cs4 := r3.dropWhile isWs
          match cs4 with
          | '"' :: r4 =>
            match findTerm ['"'] r4 with
            | some (v, suf) =>
              match parseAttrs fuel suf with
              | (as, se, con, rest) =>
                ((an, some v) :: as, se,
                 ws ++ an ++ ws2 ++ '=' :: ws3 ++ '"' :: v ++ '"' :: con, rest)
            | none =>
              ([(an, some r4)], false, ws ++ an ++ ws2 ++ '=' :: ws3 ++ '"' :: r4, [])
          | '\'' :: r4 =>
            match findTerm ['\''] r4 with
            | some (v, suf) =>
              match parseAttrs fuel suf with
              | (as, se, con, rest) =>
                ((an, some v) :: as, se,
                 ws ++ an ++ ws2 ++ '=' :: ws3 ++ '\'' :: v ++ '\'' :: con, rest)
            | none =>
              ([(an, some r4)], false, ws ++ an ++ ws2 ++ '=' :: ws3 ++ '\'' :: r4, [])
          | _ =>
            let v := cs4.takeWhile fun ch => !(isWs ch) && ch ≠ '>'
            match parseAttrs fuel (cs4.dropWhile fun ch => !(isWs ch) && ch ≠ '>') with
            | (as, se, con, rest) =>
              ((an, some v) :: as, se, ws ++ an ++ ws2 ++ '=' :: ws3 ++ v ++ con, rest)
        | _ =>
          match parseAttrs fuel cs2 with
          | (as, se, con, rest) => ((an, none) :: as, se, ws ++ an ++ con, rest)

/-- Void HTML elements (spec section 4.1). -/
def voidElems : List (List Char) :=
  (["area", "base", "br", "col", "embed", "hr", "img", "input",
    "link", "meta", "param", "source", "track", "wbr"]).map String.data

/-- Raw-text elements: their content is scanned verbatim until the
matching end tag (spec section 4.2, raw-text mode). -/
def rawTextElems : List (List Char) :=
  (["script", "style", "textarea", "title", "xmp"]).map String.data

/-- Whether the input starts the closing tag of the raw-text element
`lname`: a case-insensitive `</lname` followed by whitespace, `/`, `>`
or end-of-input. -/
def isRawEnd (lname : List Char) : List Char → Bool
  | '<' :: '/' :: r =>
    lcs (r.take lname.length) = lname &&
      (match r.drop lname.length with
       | [] => true
       | c :: _ => isWs c || c = '>' || c = '/')
  | _ => false

/-- Split raw-text content at the first matching end tag; when none
occurs the whole input is raw text. -/
def rawSplit (lname : List Char) : List Char → List Char × List Char
  | [] => ([], [])
  | c :: rest =>
    if isRawEnd lname (c :: rest) then ([], c :: rest)
    else
      match rawSplit lname rest with
      | (pre, suf) => (c :: pre, suf)

/-- Parse a start tag; the argument is the input after `<` (starting with
an ASCII letter).  Emits the start-tag token, synthesizes the hidden
end-tag token for void HTML elements (spec section 4.2 normalization; per
the tests this also happens for an explicitly self-closed void element
outside a foreign subtree, and not in XHTML mode), updates the
foreign-subtree state for `svg`/`math`, and consumes raw-text content for
raw-text elements, leaving the closing tag for the main loop. -/
def parseStart (xhtml : Bool) (fg : Option (List Char × Nat)) (rest : List Char) :
    List Markup × Option (List Char × Nat) × List Char :=
  let name := rest.takeWhile isNameChar
  let lname := lcs name
  match parseAttrs (rest.length + 1) (rest.dropWhile isNameChar) with
  | (attrs, selfEnd, con, rest1) =>
    let t : MarkupTag :=
      { tag := name, attrs := attrs, isSelfEnd := selfEnd, isXhtml := xhtml, foreign := fg.isSome }
    let startTok : Markup :=
      { data := .starttag t, hidden := false, src := some ('<' :: name ++ con) }
    let hid : List Markup :=
      if xhtml = false ∧ lname ∈ voidElems ∧ (selfEnd = false ∨ fg = none) then
        [{ data := .endtag { tag := name, attrs := [], isSelfEnd := false,
                             isXhtml := xhtml, foreign := fg.isSome },
           hidden := true, src := none }]
      else []
    let fg' :=
      match fg with
      | some (root, d) => if lname = root ∧ selfEnd = false then some (root, d + 1) else fg
      | none =>
        if (lname = "svg".data ∨ lname = "math".data) ∧ selfEnd = false then
          some (lname, 1)
        else none
    if fg = none ∧ lname ∈ rawTextElems ∧ selfEnd = false then
      match rawSplit lname rest1 with
      | (pre, suf) =>
        if pre = [] then ([startTok], fg', suf)
        else ([startTok, { data := .text pre, hidden := false, src := some pre }], fg', suf)
    else
      (startTok :: hid, fg', rest1)

/-- One fueled scanning loop over the input (the fuel always exceeds the
remaining input length; every step consumes at least one character). -/
def scan (xhtml : Bool) : Nat → Option (List Char × Nat) → List Char → List Markup
  | 0, _, _ => []
  | _ + 1, _, [] => []
  | _ + 1, _, [c] => [{ data := .text [c], hidden := false, src := some [c] }]
  | fuel + 1, fg, c :: c2 :: rest =>
    if c = '<' then
      if c2 = '!' then
        match parseBang rest with
        | (tok, rest1) => tok :: scan xhtml fuel fg rest1
      else if c2 = '?' then
        match parsePI rest with
        | (tok, rest1) => tok :: scan xhtml fuel fg rest1
      else if c2 = '/' then
        match parseEnd xhtml fg rest with
        | (tok, fg1, rest1) => tok :: scan xhtml fuel fg1 rest1
      else if isAsciiAlpha c2 then
        match parseStart xhtml fg (c2 :: rest) with
        | (toks, fg1, rest1) => toks ++ scan xhtml fuel fg1 rest1
      else
        match takeText (c :: c2 :: rest) with
        | (pre, suf) =>
          { data := .text pre, hidden := false, src := some pre } :: scan xhtml fuel fg suf
    else
      match takeText (c :: c2 :: rest) with
      | (pre, suf) =>
        { data := .text pre, hidden := false, src := some pre } :: scan xhtml fuel fg suf

/-- HtmlRewriter.loads: tokenize a markup string into the ordered token
sequence (spec section 4.2); `xhtml` is the rewriter's `is_xhtml` flag. -/
def loads (xhtml : Bool) (cs : List Char) : List Markup :=
  scan xhtml cs.length none cs

/-- Reserialization: clear every token's `raw_source` and concatenate the
rendered forms (the test convention `m.src = None` followed by joining
`str(m)`). -/
def reserialize (xhtml : Bool) (cs : List Char) : List Char :=
  renderAll (loads xhtml cs)

/-! ## Splitting lemmas

Each consuming helper partitions its input: the consumed slice appended to
the returned rest reproduces the input.  These drive the round-trip
theorem. -/

theorem findTerm_eq_append {term cs pre suf : List Char}
    (h : findTerm term cs = some (pre, suf)) : pre ++ term ++ suf = cs := by
  induction cs generalizing pre suf with
  | nil => simp [findTerm] at h
  | cons c rest ih =>
    rw [findTerm] at h
    by_cases hp : term.isPrefixOf (c :: rest)
    · simp only [hp, if_pos] at h
      obtain ⟨h1, h2⟩ := Prod.mk.injEq .. ▸ Option.some.injEq .. ▸ h
      subst h1 h2
      obtain ⟨s, hs⟩ := List.isPrefixOf_iff_prefix.1 hp
      simp [← hs, List.drop_left]
    · simp only [hp, if_neg, Bool.false_eq_true, not_false_iff] at h
      cases hft : findTerm term rest with
      | none => rw [hft] at h; exact absurd h (by simp)
      | some ps =>
        obtain ⟨p, s⟩ := ps
        rw [hft] at h
        obtain ⟨h1, h2⟩ := Prod.mk.injEq .. ▸ Option.some.injEq .. ▸ h
        subst h1 h2
        simpa using ih hft

theorem takeText_append (cs : List Char) : (takeText cs).1 ++ (takeText cs).2 = cs := by
  induction cs with
  | nil => simp [takeText]
  | cons c rest ih =>
    rw [takeText]
    by_cases hc : constructStart (c :: rest)
    · simp [hc]
    · simpa [hc] using ih

theorem takeText_fst_ne {cs : List Char} (h0 : cs ≠ [])
    (h1 : ¬ constructStart cs) : (takeText cs).1 ≠ [] := by
  cases cs with
  | nil => exact absurd rfl h0
  | cons c rest => simp [takeText, h1]

set_option maxHeartbeats 1000000

theorem parseAttrs_split (fuel : Nat) : ∀ cs : List Char,
    (parseAttrs fuel cs).2.2.1 ++ (parseAttrs fuel cs).2.2.2 = cs := by
  induction fuel with
  | zero => intro cs; simp [parseAttrs]
  | succ fuel ih =>
    intro cs
    have hsplit : cs.takeWhile isWs ++ cs.dropWhile isWs = cs :=
      List.takeWhile_append_dropWhile isWs cs
    rw [parseAttrs]
    split
    next heq => rw [heq] at hsplit; simpa using hsplit
    next r heq => rw [heq] at hsplit; simpa using hsplit
    next r heq => rw [heq] at hsplit; simpa using hsplit
    next =>
      rename_i cs1 c r hx1 hx2 heq
      rw [heq] at hsplit ⊢
      have hname : (c :: r).takeWhile isAttrNameChar ++ (c :: r).dropWhile isAttrNameChar
          = c :: r := List.takeWhile_append_dropWhile isAttrNameChar (c :: r)
      by_cases han : (c :: r).takeWhile isAttrNameChar = []
      · rcases hpa : parseAttrs fuel r with ⟨as, se, con, rest⟩
        have hr := ih r
        rw [hpa] at hr
        simp only at hr
        simp only [han, if_pos, hpa]
        conv_rhs => rw [← hsplit, ← hr]
        simp
      · simp only [han, if_neg, not_false_iff]
        have hws2 : ((c :: r).dropWhile isAttrNameChar).takeWhile isWs ++
            ((c :: r).dropWhile isAttrNameChar).dropWhile isWs
            = (c :: r).dropWhile isAttrNameChar :=
          List.takeWhile_append_dropWhile isWs _
        split
        next r3 heq3 =>
          have hws3 : r3.takeWhile isWs ++ r3.dropWhile isWs = r3 :=
            List.takeWhile_append_dropWhile isWs r3
          split
          next r4 heq4 =>
            cases hft : findTerm ['"'] r4 with
            | some ps =>
              obtain ⟨v, suf⟩ := ps
              have hvs := findTerm_eq_append hft
              rcases hpa : parseAttrs fuel suf with ⟨as, se, con, rest⟩
              have hr := ih suf
              rw [hpa] at hr
              simp only at hr
              simp only [hft, hpa]
              conv_rhs => rw [← hsplit, ← hname, ← hws2, heq3, ← hws3, heq4, ← hvs, ← hr]
              simp
            | none =>
              simp only [hft]
              conv_rhs => rw [← hsplit, ← hname, ← hws2, heq3, ← hws3, heq4]
              simp
          next r4 heq4 =>
            cases hft : findTerm ['\''] r4 with
            | some ps =>
              obtain ⟨v, suf⟩ := ps
              have hvs := findTerm_eq_append hft
              rcases hpa : parseAttrs fuel suf with ⟨as, se, con, rest⟩
              have hr := ih suf
              rw [hpa] at hr
              simp only at hr
              simp only [hft, hpa]
              conv_rhs => rw [← hsplit, ← hname, ← hws2, heq3, ← hws3, heq4, ← hvs, ← hr]
              simp
            | none =>
              simp only [hft]
              conv_rhs => rw [← hsplit, ← hname, ← hws2, heq3, ← hws3, heq4]
              simp
          next =>
            rename_i hne1 hne2
            have hv : (r3.dropWhile isWs).takeWhile (fun ch => !(isWs ch) && ch ≠ '>') ++
                (r3.dropWhile isWs).dropWhile (fun ch => !(isWs ch) && ch ≠ '>')
                = r3.dropWhile isWs :=
              List.takeWhile_append_dropWhile _ _
            rcases hpa : parseAttrs fuel
                ((r3.dropWhile isWs).dropWhile fun ch => !(isWs ch) && ch ≠ '>') with
              ⟨as, se, con, rest⟩
            have hr := ih ((r3.dropWhile isWs).dropWhile fun ch => !(isWs ch) && ch ≠ '>')
            rw [hpa] at hr
            simp only at hr
            simp only [hpa]
            conv_rhs => rw [← hsplit, ← hname, ← hws2, heq3, ← hws3, ← hv, ← hr]
            simp
        next =>
          rename_i hne
          rcases hpa : parseAttrs fuel ((c :: r).dropWhile isAttrNameChar) with
            ⟨as, se, con, rest⟩
          have hr := ih ((c :: r).dropWhile isAttrNameChar)
          rw [hpa] at hr
          simp only at hr
          simp only [hpa]
          conv_rhs => rw [← hsplit, ← hname, ← hr]
          simp

theorem rawSplit_append (lname : List Char) (cs : List Char) :
    (rawSplit lname cs).1 ++ (rawSplit lname cs).2 = cs := by
  induction cs with
  | nil => simp [rawSplit]
  | cons c rest ih =>
    rw [rawSplit]
    by_cases hc : isRawEnd lname (c :: rest)
    · simp [hc]
    · simpa [hc] using ih
theorem findTerm_suf_len {term cs pre suf : List Char}
    (h : findTerm term cs = some (pre, suf)) : suf.length ≤ cs.length := by
  have h2 := findTerm_eq_append h
  have h3 : (pre ++ term ++ suf).length = cs.length := by rw [h2]
  simp only [List.length_append] at h3
  omega

theorem nonHiddenStr_nil : nonHiddenStr [] = [] := rfl

theorem nonHiddenStr_cons (m : Markup) (ms : List Markup) :
    nonHiddenStr (m :: ms) = (if m.hidden then [] else m.str) ++ nonHiddenStr ms := rfl

theorem nonHiddenStr_append (a b : List Markup) :
    nonHiddenStr (a ++ b) = nonHiddenStr a ++ nonHiddenStr b := by
  simp [nonHiddenStr]

theorem parseComment_split (r : List Char) :
    (parseComment r).1.hidden = false ∧
    (parseComment r).1.str ++ (parseComment r).2 = '<' :: '!' :: '-' :: '-' :: r ∧
    (parseComment r).2.length ≤ r.length := by
  rw [parseComment]
  cases hft : findTerm ['-', '-', '>'] r with
  | some ps =>
    obtain ⟨pre, suf⟩ := ps
    have h := findTerm_eq_append hft
    have hl := findTerm_suf_len hft
    refine ⟨rfl, ?_, hl⟩
    simp only [Markup.str]
    conv_rhs => rw [← h]
    simp
  | none => simp [Markup.str]

theorem parseSection_split (r : List Char) :
    (parseSection r).1.hidden = false ∧
    (parseSection r).1.str ++ (parseSection r).2 = '<' :: '!' :: '[' :: r ∧
    (parseSection r).2.length ≤ r.length := by
  rw [parseSection]
  cases hft : findTerm (sectionTerm r) r with
  | some ps =>
    obtain ⟨pre, suf⟩ := ps
    have h := findTerm_eq_append hft
    have hl := findTerm_suf_len hft
    refine ⟨rfl, ?_, hl⟩
    simp only [Markup.str]
    conv_rhs => rw [← h]
    simp
  | none => simp [Markup.str]

theorem parseDoctype_split (rest : List Char) :
    (parseDoctype rest).1.hidden = false ∧
    (parseDoctype rest).1.str ++ (parseDoctype rest).2 = '<' :: '!' :: rest ∧
    (parseDoctype rest).2.length ≤ rest.length := by
  rw [parseDoctype]
  cases hft : findTerm ['>'] (rest.drop 7) with
  | some ps =>
    obtain ⟨pre, suf⟩ := ps
    have h := findTerm_eq_append hft
    have hl : suf.length ≤ (rest.drop 7).length := findTerm_suf_len hft
    have hd : rest.take 7 ++ rest.drop 7 = rest := List.take_append_drop 7 rest
    have hdl : (rest.drop 7).length ≤ rest.length := by simp
    refine ⟨rfl, ?_, le_trans hl hdl⟩
    simp only [Markup.str]
    conv_rhs => rw [← hd, ← h]
    simp
  | none => simp [Markup.str]

theorem parseBogusComment_split (rest : List Char) :
    (parseBogusComment rest).1.hidden = false ∧
    (parseBogusComment rest).1.str ++ (parseBogusComment rest).2 = '<' :: '!' :: rest ∧
    (parseBogusComment rest).2.length ≤ rest.length := by
  rw [parseBogusComment]
  cases hft : findTerm ['>'] rest with
  | some ps =>
    obtain ⟨pre, suf⟩ := ps
    have h := findTerm_eq_append hft
    have hl := findTerm_suf_len hft
    refine ⟨rfl, ?_, hl⟩
    simp only [Markup.str]
    conv_rhs => rw [← h]
    simp
  | none => simp [Markup.str]

theorem parseBang_split (rest : List Char) :
    (parseBang rest).1.hidden = false ∧
    (parseBang rest).1.str ++ (parseBang rest).2 = '<' :: '!' :: rest ∧
    (parseBang rest).2.length ≤ rest.length := by
  rw [parseBang]
  by_cases h2 : rest.take 2 = ['-', '-']
  · have hd : rest.take 2 ++ rest.drop 2 = rest := List.take_append_drop 2 rest
    rw [h2] at hd
    have h := parseComment_split (rest.drop 2)
    have hdl : (rest.drop 2).length ≤ rest.length := by simp
    simp only [h2, if_pos]
    refine ⟨h.1, ?_, le_trans h.2.2 hdl⟩
    conv_rhs => rw [← hd]
    exact h.2.1
  · simp only [h2, if_neg, not_false_iff]
    by_cases h1 : rest.take 1 = ['[']
    · have hd : rest.take 1 ++ rest.drop 1 = rest := List.take_append_drop 1 rest
      rw [h1] at hd
      have h := parseSection_split (rest.drop 1)
      have hdl : (rest.drop 1).length ≤ rest.length := by simp
      simp only [h1, if_pos]
      refine ⟨h.1, ?_, le_trans h.2.2 hdl⟩
      conv_rhs => rw [← hd]
      exact h.2.1
    · simp only [h1, if_neg, not_false_iff]
      by_cases hdt : lcs (rest.take 7) = "doctype".data
      · simpa [hdt] using parseDoctype_split rest
      · simpa [hdt] using parseBogusComment_split rest

theorem parsePI_split (rest : List Char) :
    (parsePI rest).1.hidden = false ∧
    (parsePI rest).1.str ++ (parsePI rest).2 = '<' :: '?' :: rest ∧
    (parsePI rest).2.length ≤ rest.length := by
  rw [parsePI]
  cases hft : findTerm ['>'] rest with
  | some ps =>
    obtain ⟨pre, suf⟩ := ps
    have h := findTerm_eq_append hft
    have hl := findTerm_suf_len hft
    refine ⟨rfl, ?_, hl⟩
    simp only [Markup.str]
    conv_rhs => rw [← h]
    simp
  | none => simp [Markup.str]

theorem parseEnd_split (xhtml : Bool) (fg : Option (List Char × Nat)) (rest : List Char) :
    (parseEnd xhtml fg rest).1.hidden = false ∧
    (parseEnd xhtml fg rest).1.str ++ (parseEnd xhtml fg rest).2.2 = '<' :: '/' :: rest ∧
    (parseEnd xhtml fg rest).2.2.length ≤ rest.length := by
  rw [parseEnd.eq_def]
  have hname : rest.takeWhile isNameChar ++ rest.dropWhile isNameChar = rest :=
    List.takeWhile_append_dropWhile isNameChar rest
  cases hft : findTerm ['>'] (rest.dropWhile isNameChar) with
  | some ps =>
    obtain ⟨pre, suf⟩ := ps
    have h := findTerm_eq_append hft
    have hl : suf.length ≤ (rest.dropWhile isNameChar).length := findTerm_suf_len hft
    have hdl : (rest.dropWhile isNameChar).length ≤ rest.length := by
      have h5 := congrArg List.length (List.takeWhile_append_dropWhile isNameChar rest)
      simp only [List.length_append] at h5
      omega
    refine ⟨rfl, ?_, le_trans hl hdl⟩
    simp only [Markup.str]
    conv_rhs => rw [← hname, ← h]
    simp
  | none => simp [Markup.str]

theorem parseStart_split (xhtml : Bool) (fg : Option (List Char × Nat)) (rest : List Char) :
    nonHiddenStr (parseStart xhtml fg rest).1 ++ (parseStart xhtml fg rest).2.2 = '<' :: rest ∧
    (parseStart xhtml fg rest).2.2.length ≤ rest.length := by
  rw [parseStart]
  have hname : rest.takeWhile isNameChar ++ rest.dropWhile isNameChar = rest :=
    List.takeWhile_append_dropWhile isNameChar rest
  rcases hpa : parseAttrs (rest.length + 1) (rest.dropWhile isNameChar) with
    ⟨attrs, selfEnd, con, rest1⟩
  have hsp := parseAttrs_split (rest.length + 1) (rest.dropWhile isNameChar)
  rw [hpa] at hsp
  simp only at hsp
  have hdl : (rest.dropWhile isNameChar).length ≤ rest.length := by
    have h5 := congrArg List.length (List.takeWhile_append_dropWhile isNameChar rest)
    simp only [List.length_append] at h5
    omega
  have hr1 : rest1.length ≤ rest.length := by
    have : (con ++ rest1).length = (rest.dropWhile isNameChar).length := by rw [hsp]
    simp only [List.length_append] at this
    omega
  simp only [hpa]
  by_cases hraw : fg = none ∧ lcs (rest.takeWhile isNameChar) ∈ rawTextElems ∧ selfEnd = false
  · simp only [hraw, if_pos]
    rcases hrs : rawSplit (lcs (rest.takeWhile isNameChar)) rest1 with ⟨pre, suf⟩
    have hra := rawSplit_append (lcs (rest.takeWhile isNameChar)) rest1
    rw [hrs] at hra
    simp only at hra
    have hsl : suf.length ≤ rest.length := by
      have : (pre ++ suf).length = rest1.length := by rw [hra]
      simp only [List.length_append] at this
      omega
    by_cases hpre : pre = []
    · simp only [hpre, if_pos]
      refine ⟨?_, hsl⟩
      conv_rhs => rw [← hname, ← hsp, ← hra, hpre]
      simp [nonHiddenStr, Markup.str]
    · simp only [hpre, if_neg, not_false_iff]
      refine ⟨?_, hsl⟩
      conv_rhs => rw [← hname, ← hsp, ← hra]
      simp [nonHiddenStr, Markup.str]
  · simp only [hraw, if_neg, not_false_iff]
    refine ⟨?_, hr1⟩
    by_cases hv : xhtml = false ∧ lcs (rest.takeWhile isNameChar) ∈ voidElems ∧
        (selfEnd = false ∨ fg = none)
    · simp only [hv, if_pos]
      conv_rhs => rw [← hname, ← hsp]
      simp [nonHiddenStr, Markup.str]
    · simp only [hv, if_neg, not_false_iff]
      conv_rhs => rw [← hname, ← hsp]
      simp [nonHiddenStr, Markup.str]
theorem scan_roundtrip (xhtml : Bool) : ∀ (fuel : Nat) (fg : Option (List Char × Nat))
    (cs : List Char), cs.length ≤ fuel → nonHiddenStr (scan xhtml fuel fg cs) = cs := by
  intro fuel
  induction fuel with
  | zero =>
    intro fg cs h
    have : cs = [] := List.eq_nil_of_length_eq_zero (Nat.le_zero.1 h)
    subst this
    simp [scan, nonHiddenStr]
  | succ fuel ih =>
    intro fg cs h
    match cs with
    | [] => simp [scan, nonHiddenStr]
    | [c] => simp [scan, nonHiddenStr, Markup.str]
    | c :: c2 :: rest =>
      simp only [List.length_cons] at h
      rw [scan]
      by_cases hc : c = '<'
      · subst hc
        by_cases hb : c2 = '!'
        · subst hb
          rcases hpb : parseBang rest with ⟨tok, rest1⟩
          have hs := parseBang_split rest
          rw [hpb] at hs
          simp only at hs
          have hr := ih fg rest1 (by have := hs.2.2; omega)
          simp [hpb, nonHiddenStr_cons, hs.1, hr, hs.2.1]
        · by_cases hq : c2 = '?'
          · subst hq
            rcases hpb : parsePI rest with ⟨tok, rest1⟩
            have hs := parsePI_split rest
            rw [hpb] at hs
            simp only at hs
            have hr := ih fg rest1 (by have := hs.2.2; omega)
            simp [hb, hpb, nonHiddenStr_cons, hs.1, hr, hs.2.1]
          · by_cases hsl : c2 = '/'
            · subst hsl
              rcases hpb : parseEnd xhtml fg rest with ⟨tok, fg1, rest1⟩
              have hs := parseEnd_split xhtml fg rest
              rw [hpb] at hs
              simp only at hs
              have hr := ih fg1 rest1 (by have := hs.2.2; omega)
              simp [hb, hq, hpb, nonHiddenStr_cons, hs.1, hr, hs.2.1]
            · by_cases hal : isAsciiAlpha c2 = true
              · rcases hpb : parseStart xhtml fg (c2 :: rest) with ⟨toks, fg1, rest1⟩
                have hs := parseStart_split xhtml fg (c2 :: rest)
                rw [hpb] at hs
                simp only at hs
                have hr := ih fg1 rest1
                  (by have := hs.2; simp only [List.length_cons] at this; omega)
                simp only [hb, hq, hsl, hal, if_neg, if_pos, not_false_iff, hpb]
                rw [nonHiddenStr_append, hr]
                exact hs.1
              · have hct : constructStart ('<' :: c2 :: rest) = false := by
                  simp [constructStart, hb, hq, hsl, hal]
                rcases htt : takeText ('<' :: c2 :: rest) with ⟨pre, suf⟩
                have hta := takeText_append ('<' :: c2 :: rest)
                rw [htt] at hta
                simp only at hta
                have hne : pre ≠ [] := by
                  have h0 := @takeText_fst_ne ('<' :: c2 :: rest) (by simp)
                    (by simp [hct])
                  rw [htt] at h0
                  simpa using h0
                have hlen : suf.length ≤ fuel := by
                  have hcg := congrArg List.length hta
                  simp only [List.length_append, List.length_cons] at hcg
                  have hp1 : 1 ≤ pre.length := List.length_pos.2 hne
                  omega
                have hr := ih fg suf hlen
                simp [hb, hq, hsl, hal, htt, nonHiddenStr_cons, Markup.str, hr, hta]
      · have hct : constructStart (c :: c2 :: rest) = false := by
          simp [constructStart, hc]
        rcases htt : takeText (c :: c2 :: rest) with ⟨pre, suf⟩
        have hta := takeText_append (c :: c2 :: rest)
        rw [htt] at hta
        simp only at hta
        have hne : pre ≠ [] := by
          have h0 := @takeText_fst_ne (c :: c2 :: rest) (by simp) (by simp [hct])
          rw [htt] at h0
          simpa using h0
        have hlen : suf.length ≤ fuel := by
          have hcg := congrArg List.length hta
          simp only [List.length_append, List.length_cons] at hcg
          have hp1 : 1 ≤ pre.length := List.length_pos.2 hne
          omega
        have hr := ih fg suf hlen
        simp [hc, htt, nonHiddenStr_cons, Markup.str, hr, hta]

/-- C1: Tokenizer round-trip identity: for every input markup string `s`,
concatenating `str(t)` over the tokens returned by `HtmlRewriter().loads(s)`,
keeping only tokens with `hidden == false`, reproduces `s` exactly. -/
theorem tokenizer_roundtrip_identity (s : String) :
    nonHiddenStr (loads false s.data) = s.data :=
  scan_roundtrip false s.data.length none s.data le_rfl
/-! ## Void-element pairing -/

/-- Whether a token is a start tag of a void HTML element with no explicit
self-closing syntax, outside any foreign-content subtree, in HTML mode
(exactly the tokens for which the spec prescribes a synthesized hidden
end tag immediately after). -/
def voidStartNeedsPair (m : Markup) : Bool :=
  match m.data with
  | .starttag t =>
    decide (lcs t.tag ∈ voidElems ∧ t.isSelfEnd = false ∧ t.foreign = false ∧
      t.isXhtml = false)
  | _ => false

/-- The synthesized hidden end-tag token expected right after a void start
tag. -/
def pairTok (m : Markup) : Markup :=
  match m.data with
  | .starttag t =>
    { data := .endtag { tag := t.tag, attrs := [], isSelfEnd := false,
                        isXhtml := t.isXhtml, foreign := t.foreign },
      hidden := true, src := none }
  | _ => m

/-- Void-element pairing over a token stream: every void-element start tag
with no explicit self-close is immediately followed by the synthesized
hidden end tag of the same name. -/
def voidPaired : List Markup → Bool
  | [] => true
  | m :: ms =>
    (if voidStartNeedsPair m then
       match ms with
       | m2 :: _ => decide (m2 = pairTok m)
       | [] => false
     else true) && voidPaired ms

theorem voidStartNeedsPair_eq_false {m : Markup}
    (h : ∀ t, m.data ≠ .starttag t) : voidStartNeedsPair m = false := by
  cases hd : m.data with
  | starttag t => exact absurd hd (h t)
  | text c => simp [voidStartNeedsPair, hd]
  | comment c => simp [voidStartNeedsPair, hd]
  | decl c => simp [voidStartNeedsPair, hd]
  | markedSection c => simp [voidStartNeedsPair, hd]
  | pi c => simp [voidStartNeedsPair, hd]
  | endtag t => simp [voidStartNeedsPair, hd]

theorem parseComment_no_start (r : List Char) :
    ∀ t, (parseComment r).1.data ≠ .starttag t := by
  intro t
  rw [parseComment]
  cases hft : findTerm ['-', '-', '>'] r with
  | some ps => obtain ⟨pre, suf⟩ := ps; simp
  | none => simp

theorem parseSection_no_start (r : List Char) :
    ∀ t, (parseSection r).1.data ≠ .starttag t := by
  intro t
  rw [parseSection]
  cases hft : findTerm (sectionTerm r) r with
  | some ps => obtain ⟨pre, suf⟩ := ps; simp
  | none => simp

theorem parseDoctype_no_start (rest : List Char) :
    ∀ t, (parseDoctype rest).1.data ≠ .starttag t := by
  intro t
  rw [parseDoctype]
  cases hft : findTerm ['>'] (rest.drop 7) with
  | some ps => obtain ⟨pre, suf⟩ := ps; simp
  | none => simp

theorem parseBogusComment_no_start (rest : List Char) :
    ∀ t, (parseBogusComment rest).1.data ≠ .starttag t := by
  intro t
  rw [parseBogusComment]
  cases hft : findTerm ['>'] rest with
  | some ps => obtain ⟨pre, suf⟩ := ps; simp
  | none => simp

theorem parseBang_no_start (rest : List Char) :
    ∀ t, (parseBang rest).1.data ≠ .starttag t := by
  intro t
  rw [parseBang]
  by_cases h2 : rest.take 2 = ['-', '-']
  · simpa [h2] using parseComment_no_start (rest.drop 2) t
  · simp only [h2, if_neg, not_false_iff]
    by_cases h1 : rest.take 1 = ['[']
    · simpa [h1] using parseSection_no_start (rest.drop 1) t
    · simp only [h1, if_neg, not_false_iff]
      by_cases hdt : lcs (rest.take 7) = "doctype".data
      · simpa [hdt] using parseDoctype_no_start rest t
      · simpa [hdt] using parseBogusComment_no_start rest t

theorem parsePI_no_start (rest : List Char) :
    ∀ t, (parsePI rest).1.data ≠ .starttag t := by
  intro t
  rw [parsePI]
  cases hft : findTerm ['>'] rest with
  | some ps => obtain ⟨pre, suf⟩ := ps; simp
  | none => simp

theorem parseEnd_no_start (xhtml : Bool) (fg : Option (List Char × Nat)) (rest : List Char) :
    ∀ t, (parseEnd xhtml fg rest).1.data ≠ .starttag t := by
  intro t
  rw [parseEnd.eq_def]
  cases hft : findTerm ['>'] (rest.dropWhile isNameChar) with
  | some ps => obtain ⟨pre, suf⟩ := ps; simp
  | none => simp

theorem rawText_not_void {x : List Char} (h : x ∈ rawTextElems) : x ∉ voidElems := by
  fin_cases h <;> decide

theorem voidPaired_parseStart (xhtml : Bool) (fg : Option (List Char × Nat))
    (rest : List Char) (ms : List Markup) (hms : voidPaired ms = true) :
    voidPaired ((parseStart xhtml fg rest).1 ++ ms) = true := by
  rw [parseStart]
  rcases hpa : parseAttrs (rest.length + 1) (rest.dropWhile isNameChar) with
    ⟨attrs, selfEnd, con, rest1⟩
  simp only [hpa]
  by_cases hraw : fg = none ∧ lcs (rest.takeWhile isNameChar) ∈ rawTextElems ∧ selfEnd = false
  · simp only [hraw, if_pos]
    have hnv : lcs (rest.takeWhile isNameChar) ∉ voidElems := rawText_not_void hraw.2.1
    rcases hrs : rawSplit (lcs (rest.takeWhile isNameChar)) rest1 with ⟨pre, suf⟩
    by_cases hpre : pre = []
    · simp [hpre, voidPaired, voidStartNeedsPair, hnv, hms]
    · simp [hpre, voidPaired, voidStartNeedsPair, hnv, hms]
  · simp only [hraw, if_neg, not_false_iff]
    by_cases hv : xhtml = false ∧ lcs (rest.takeWhile isNameChar) ∈ voidElems ∧
        (selfEnd = false ∨ fg = none)
    · simp only [hv, if_pos]
      obtain ⟨hx, hv2, hv3⟩ := hv
      subst hx
      simp [voidPaired, voidStartNeedsPair, pairTok, hms]
    · simp only [hv, if_neg, not_false_iff]
      have hnp : voidStartNeedsPair
          { data := .starttag { tag := rest.takeWhile isNameChar, attrs := attrs,
                                isSelfEnd := selfEnd, isXhtml := xhtml, foreign := fg.isSome },
            hidden := false, src := some ('<' :: rest.takeWhile isNameChar ++ con) } = false := by
        cases fg with
        | some p => simp [voidStartNeedsPair]
        | none =>
          simp only [voidStartNeedsPair, Option.isSome_none, decide_eq_false_iff_not]
          intro hcon
          exact hv ⟨hcon.2.2.2, hcon.1, Or.inl hcon.2.1⟩
      simp only [List.cons_append] at hnp
      simp [voidPaired, hms]
      exact Or.inl hnp

theorem scan_voidPaired (xhtml : Bool) : ∀ (fuel : Nat) (fg : Option (List Char × Nat))
    (cs : List Char), voidPaired (scan xhtml fuel fg cs) = true := by
  intro fuel
  induction fuel with
  | zero => intro fg cs; simp [scan, voidPaired]
  | succ fuel ih =>
    intro fg cs
    match cs with
    | [] => simp [scan, voidPaired]
    | [c] => simp [scan, voidPaired, voidStartNeedsPair]
    | c :: c2 :: rest =>
      rw [scan]
      by_cases hc : c = '<'
      · subst hc
        by_cases hb : c2 = '!'
        · subst hb
          rcases hpb : parseBang rest with ⟨tok, rest1⟩
          have htd := parseBang_no_start rest
          rw [hpb] at htd
          simp only at htd
          have hnp := voidStartNeedsPair_eq_false htd
          simp [hpb, voidPaired, hnp, ih]
        · by_cases hq : c2 = '?'
          · subst hq
            rcases hpb : parsePI rest with ⟨tok, rest1⟩
            have htd := parsePI_no_start rest
            rw [hpb] at htd
            simp only at htd
            have hnp := voidStartNeedsPair_eq_false htd
            simp [hb, hpb, voidPaired, hnp, ih]
          · by_cases hsl : c2 = '/'
            · subst hsl
              rcases hpb : parseEnd xhtml fg rest with ⟨tok, fg1, rest1⟩
              have htd := parseEnd_no_start xhtml fg rest
              rw [hpb] at htd
              simp only at htd
              have hnp := voidStartNeedsPair_eq_false htd
              simp [hb, hq, hpb, voidPaired, hnp, ih]
            · by_cases hal : isAsciiAlpha c2 = true
              · have hvp := voidPaired_parseStart xhtml fg (c2 :: rest)
                  (scan xhtml fuel (parseStart xhtml fg (c2 :: rest)).2.1
                    (parseStart xhtml fg (c2 :: rest)).2.2) (ih _ _)
                rcases hpb : parseStart xhtml fg (c2 :: rest) with ⟨toks, fg1, rest1⟩
                rw [hpb] at hvp
                simp only at hvp
                simp [hb, hq, hsl, hal, hpb, hvp]
              · rcases htt : takeText ('<' :: c2 :: rest) with ⟨pre, suf⟩
                simp [hb, hq, hsl, hal, htt, voidPaired, voidStartNeedsPair, ih]
      · rcases htt : takeText (c :: c2 :: rest) with ⟨pre, suf⟩
        simp [hc, htt, voidPaired, voidStartNeedsPair, ih]

/-- C5: Void-element pairing: in every token sequence produced by `loads`,
each start-tag token of a void HTML element (one whose lower-cased name is
in the void-element list, parsed as an HTML element, i.e. outside any
foreign-content subtree) that has no explicit self-closing syntax is
immediately followed by a synthesized end-tag token of the same name whose
`hidden` flag is true. -/
theorem void_element_pairing (s : String) : voidPaired (loads false s.data) = true :=
  scan_voidPaired false s.data.length none s.data

/-! ## Composite virtual filesystem model

Modelled from the spec: sections 3 "Composite Path", 4.3 (resolution
algorithm) and 4.4 (archive-aware file operations).  The Python module
`webscrapbook/util/fs.py` is absent from the snapshot; the model follows
the spec's algorithm, with the probe order pinned by
`tests/test_util_fs.py` (`TestCPath.test_resolve1`..`test_resolve4`).
Paths are `List Char`; a composite path is a list of path segments whose
head is the real filesystem path and whose tail are archive subpaths. -/

/-- Content of a stored file: either plain (non-archive) bytes, or a valid
ZIP archive given by its namelist, each entry name mapped to its own
content (an entry whose name ends in `/` is an explicit directory
marker). -/
inductive ZFile where
  | raw (content : List Char) : ZFile
  | zip (entries : List (List Char × ZFile)) : ZFile

/-- A real filesystem entity: a directory with named children, a file, or
a symbolic link to a target path. -/
inductive REnt where
  | dir (children : List (String × REnt)) : REnt
  | file (content : ZFile) : REnt
  | symlink (target : List Char) : REnt

/-- Look up a named child in a directory child list. -/
def findChild (children : List (String × REnt)) (n : String) : Option REnt :=
  match children with
  | [] => none
  | (m, e) :: rest => if m = n then some e else findChild rest n

/-- Look up an entity by path components (no symlink following along the
way; intermediate non-directories fail the lookup). -/
def rlookup (e : REnt) : List String → Option REnt
  | [] => some e
  | n :: rest =>
    match e with
    | .dir children =>
      match findChild children n with
      | some ch => rlookup ch rest
      | none => none
    | _ => none

/-- Split a character list on a separator character. -/
def splitSep (sep : Char) : List Char → List (List Char)
  | [] => [[]]
  | c :: rest =>
    if c = sep then [] :: splitSep sep rest
    else
      match splitSep sep rest with
      | p :: ps => (c :: p) :: ps
      | [] => [[c]]

/-- Join components with `/`. -/
def joinSlash : List (List Char) → List Char
  | [] => []
  | [p] => p
  | p :: ps => p ++ '/' :: joinSlash ps

/-- Normalize POSIX-style path components: drop empty and `.` components;
a `..` pops the previous component and is dropped at the root (archive
subpaths clamp at the archive root, spec section 4.3 path tidying). -/
def normComps (acc : List (List Char)) : List (List Char) → List (List Char)
  | [] => acc.reverse
  | c :: rest =>
    if c = [] ∨ c = ['.'] then normComps acc rest
    else if c = ['.', '.'] then normComps (acc.drop 1) rest
    else normComps (c :: acc) rest

/-- POSIX normalization of an archive subpath: split on `/`, resolve `.`
and `..` (clamping at the root), join back. -/
def posixNorm (s : List Char) : List Char :=
  joinSlash (normComps [] (splitSep '/' s))

/-- Normalization of the real-path segment (platform rules; the model uses
the POSIX behaviour of `os.path.normpath` for relative paths, keeping
leading `..` components). -/
def realNormComps (acc : List (List Char)) : List (List Char) → List (List Char)
  | [] => acc.reverse
  | c :: rest =>
    if c = [] ∨ c = ['.'] then realNormComps acc rest
    else if c = ['.', '.'] then
      match acc with
      | [] => realNormComps [['.', '.']] rest
      | top :: acc2 =>
        if top = ['.', '.'] then realNormComps (c :: acc) rest
        else realNormComps acc2 rest
    else realNormComps (c :: acc) rest

/-- Normalize a real (relative) path string. -/
def realNorm (s : List Char) : List Char :=
  joinSlash (realNormComps [] (splitSep '/' s))

/-- Path components used for a filesystem lookup of a normalized real
path. -/
def pathComps (s : List Char) : List String :=
  (realNormComps [] (splitSep '/' s)).map fun c => String.mk c

/-- Split a composite path string on the `!/` archive markers. -/
def splitBang : List Char → List (List Char)
  | [] => [[]]
  | '!' :: '/' :: rest => [] :: splitBang rest
  | c :: rest =>
    match splitBang rest with
    | p :: ps => (c :: p) :: ps
    | [] => [[c]]

/-- Join parts back with `!/`. -/
def joinBang : List (List Char) → List Char
  | [] => []
  | [p] => p
  | p :: ps => p ++ '!' :: '/' :: joinBang ps

/-- Whether a ZIP namelist has an entry literally named `lit` (a file), or
`lit ++ "/"` (explicit directory marker), or any entry under the implicit
directory `lit ++ "/"` (spec section 4.3: an explicit, possibly zero-byte,
marker entry literally named with the `!` characters takes priority). -/
def zipHasLiteral (entries : List (List Char × ZFile)) (lit : List Char) : Bool :=
  entries.any fun e =>
    e.1 = lit || e.1 = lit ++ ['/'] || (lit ++ ['/']).isPrefixOf e.1

/-- Look up a ZIP entry by exact name. -/
def zipFind (entries : List (List Char × ZFile)) (n : List Char) : Option ZFile :=
  match entries with
  | [] => none
  | (m, z) :: rest => if m = n then some z else zipFind rest n

/-- Resolution of the archive-internal part of a composite path string
(spec section 4.3, applied recursively inside an archive): scan the
candidate `!/` boundaries left to right; a literal entry (file, explicit
or implicit directory) named with the trailing `!` keeps the boundary
textual; otherwise a stored entry at the bare name whose own bytes are a
valid ZIP is descended into; otherwise the boundary stays textual.  When
no boundary crosses, the whole remaining subpath is one POSIX-normalized
segment. -/
def zipScan (entries : List (List Char × ZFile)) (done : List (List Char)) :
    List (List Char) → List (List Char)
  | [] => [posixNorm (joinBang done)]
  | r :: rs =>
    let p := posixNorm (joinBang done)
    if zipHasLiteral entries (p ++ ['!']) then zipScan entries (done ++ [r]) rs
    else
      match zipFind entries p with
      | some (.zip entries2) => p :: zipScan entries2 [r] rs
      | _ => zipScan entries (done ++ [r]) rs

/-- Resolution of the real-filesystem part of a composite path string
(spec section 4.3): scan the candidate `!/` boundaries left to right; a
literal on-disk entry (file or directory) named with the trailing `!`
keeps the boundary textual; otherwise a real file at the bare name that is
a valid ZIP is crossed into, resolving the remainder inside the archive;
otherwise the boundary stays textual.  When no boundary crosses, the
result is a single real segment equal to the normalized original
string. -/
def diskScan (fs : REnt) (done : List (List Char)) :
    List (List Char) → List (List Char)
  | [] => [realNorm (joinBang done)]
  | r :: rs =>
    if (rlookup fs (pathComps (joinBang done ++ ['!']))).isSome then
      diskScan fs (done ++ [r]) rs
    else
      match rlookup fs (pathComps (joinBang done)) with
      | some (.file (.zip entries)) => realNorm (joinBang done) :: zipScan entries [r] rs
      | _ => diskScan fs (done ++ [r]) rs

/-- CPath.resolve: resolve a composite path string against the filesystem
`fs` into its list of segments (spec section 4.3). -/
def resolve (fs : REnt) (s : List Char) : List (List Char) :=
  match splitBang s with
  | [] => [realNorm s]
  | p :: ps => diskScan fs [p] ps

/-! ## Archive-aware file operations

Modelled from the spec: section 4.4.  Errors use the spec's section 7
taxonomy.  Operations take composite paths as segment lists (a plain
string is a single-segment composite path). -/

/-- Error taxonomy of the file-operations layer (spec section 7). -/
inductive FSErr where
  | entryNotFound : FSErr
  | entryExists : FSErr
  | fileExists : FSErr
  | isADirectory : FSErr
  | badParent : FSErr
  | badZipFile : FSErr
  | moveAcrossZip : FSErr
  | genericFail : FSErr
  | partialFail (failed : List (List Char)) : FSErr
deriving Repr, DecidableEq

/-- Replace the value of a named child, appending when absent. -/
def setChild (children : List (String × REnt)) (n : String) (v : REnt) :
    List (String × REnt) :=
  match children with
  | [] => [(n, v)]
  | (m, e) :: rest => if m = n then (n, v) :: rest else (m, e) :: setChild rest n v

/-- Insert an entity at a path, creating intermediate directories as
needed; an ancestor occupied by a non-directory fails with BadParent. -/
def rinsert (e : REnt) : List String → REnt → Except FSErr REnt
  | [], v => .ok v
  | [n], v =>
    match e with
    | .dir children => .ok (.dir (setChild children n v))
    | _ => .error .badParent
  | n :: n2 :: rest, v =>
    match e with
    | .dir children =>
      match findChild children n with
      | some ch => (rinsert ch (n2 :: rest) v).map fun ch2 => .dir (setChild children n ch2)
      | none =>
        (rinsert (.dir []) (n2 :: rest) v).map fun ch2 => .dir (children ++ [(n, ch2)])
    | _ => .error .badParent

/-- Delete the entity at a path (no-op when absent). -/
def rdelete (e : REnt) : List String → REnt
  | [] => e
  | [n] =>
    match e with
    | .dir children => .dir (children.filter fun p => p.1 ≠ n)
    | _ => e
  | n :: n2 :: rest =>
    match e with
    | .dir children =>
      match findChild children n with
      | some ch => .dir (setChild children n (rdelete ch (n2 :: rest)))
      | none => e
    | _ => e

/-- Replace the content of a named ZIP entry, appending when absent. -/
def setZipEntry (entries : List (List Char × ZFile)) (n : List Char) (v : ZFile) :
    List (List Char × ZFile) :=
  match entries with
  | [] => [(n, v)]
  | (m, z) :: rest => if m = n then (n, v) :: rest else (m, z) :: setZipEntry rest n v

/-- Navigate a chain of nested archives given by subpath segments and
apply a namelist transformation to the innermost archive, writing every
intermediate archive back on the way out (spec section 4.4 scoped LIFO
resource discipline). -/
def zipChainModify (entries : List (List Char × ZFile)) :
    List (List Char) → (List (List Char × ZFile) → Except FSErr (List (List Char × ZFile))) →
    Except FSErr (List (List Char × ZFile))
  | [], f => f entries
  | sub :: rest, f =>
    match zipFind entries sub with
    | some (.zip inner) =>
      (zipChainModify inner rest f).map fun inner2 =>
        setZipEntry entries sub (.zip inner2)
    | some (.raw _) => .error .badZipFile
    | none => .error .entryNotFound

/-- Proper ancestor paths of a component list (joined with `/`). -/
def ancestorJoins : List (List Char) → List (List Char)
  | [] => []
  | [_] => []
  | c :: c2 :: rest => (ancestorJoins (c2 :: rest)).map (fun p => c ++ '/' :: p) ++ [c]

/-- Whether a proper ancestor component of the subpath is occupied by a
plain file entry (BadParent inside an archive). -/
def zipAncestorBlocked (entries : List (List Char × ZFile)) (sub : List Char) : Bool :=
  (ancestorJoins (splitSep '/' sub)).any fun pre => (zipFind entries pre).isSome

/-- Create a directory entry inside an archive chain: a no-op when the
target is the archive root (which always implicitly exists) or when the
explicit marker already exists; FileExists when a file occupies the
target; BadParent when an ancestor component is a file entry; otherwise a
zero-byte `subpath/` marker entry is written (spec section 4.4 table,
`mkdir`). -/
def zipMkdirLeaf (sub : List Char) (entries : List (List Char × ZFile)) :
    Except FSErr (List (List Char × ZFile)) :=
  if sub = [] then .ok entries
  else if (zipFind entries (sub ++ ['/'])).isSome then .ok entries
  else if (zipFind entries sub).isSome then .error .fileExists
  else if zipAncestorBlocked entries sub then .error .badParent
  else .ok (entries ++ [(sub ++ ['/'], .raw [])])

/-- Create a real directory, creating parents as needed; EntryExists when
a non-directory occupies the target, BadParent when an ancestor is a
non-directory. -/
def mkdirReal (e : REnt) : List String → Except FSErr REnt
  | [] =>
    match e with
    | .dir _ => .ok e
    | _ => .error .entryExists
  | n :: rest =>
    match e with
    | .dir children =>
      match findChild children n with
      | some ch => (mkdirReal ch rest).map fun ch2 => .dir (setChild children n ch2)
      | none => (mkdirReal (.dir []) rest).map fun ch2 => .dir (children ++ [(n, ch2)])
    | _ => .error .badParent

/-- The mkdir operation over a composite path (spec section 4.4 table). -/
def mkdir (fs : REnt) (cp : List (List Char)) : Except FSErr REnt :=
  match cp with
  | [] => .error .entryNotFound
  | [p] => mkdirReal fs (pathComps p)
  | p :: sub :: subs =>
    match rlookup fs (pathComps p) with
    | some (.file (.zip entries)) =>
      match zipChainModify entries ((sub :: subs).dropLast)
          (zipMkdirLeaf ((sub :: subs).getLastD [])) with
      | .ok entries2 => rinsert fs (pathComps p) (.file (.zip entries2))
      | .error e => .error e
    | some (.file (.raw _)) => .error .badZipFile
    | some _ => .error .entryNotFound
    | none => .error .entryNotFound

/-- Entries forming the ZIP subtree rooted at `sub`: the exact file entry,
the explicit directory marker, and everything below the implicit
directory. -/
def zipTake (entries : List (List Char × ZFile)) (sub : List Char) :
    List (List Char × ZFile) :=
  entries.filter fun e =>
    e.1 = sub ∨ e.1 = sub ++ ['/'] ∨ (sub ++ ['/']).isPrefixOf e.1

/-- Remove the ZIP subtree rooted at `sub` from a namelist. -/
def zipDrop (entries : List (List Char × ZFile)) (sub : List Char) :
    List (List Char × ZFile) :=
  entries.filter fun e =>
    ¬(e.1 = sub ∨ e.1 = sub ++ ['/'] ∨ (sub ++ ['/']).isPrefixOf e.1)

/-- Rename the subtree entries from the `sub` prefix to the `dst`
prefix. -/
def zipRenameAll (taken : List (List Char × ZFile)) (sub dst : List Char) :
    List (List Char × ZFile) :=
  taken.map fun e => (dst ++ e.1.drop sub.length, e.2)

/-- Navigate a chain of nested archives and read the innermost
namelist. -/
def zipChainGet (entries : List (List Char × ZFile)) :
    List (List Char) → Except FSErr (List (List Char × ZFile))
  | [] => .ok entries
  | sub :: rest =>
    match zipFind entries sub with
    | some (.zip inner) => zipChainGet inner rest
    | some (.raw _) => .error .badZipFile
    | none => .error .entryNotFound

/-- Whether a namelist has a directory (explicit marker or implicit) at
`sub`. -/
def zipIsDir (entries : List (List Char × ZFile)) (sub : List Char) : Bool :=
  entries.any fun e => e.1 = sub ++ ['/'] || (sub ++ ['/']).isPrefixOf e.1

/-- Last path component of a subpath. -/
def lastComp (sub : List Char) : List Char :=
  (splitSep '/' sub).getLastD []

/-- Move of a real entry to a real destination: the source must exist; a
destination that is an existing directory receives the entry under the
source's base name; moving onto itself or into an own descendant fails;
a destination collision fails with EntryExists; otherwise the entry is
deleted at the source and inserted at the destination (parents created as
needed). -/
def moveReal (fs : REnt) (s d : List Char) : Except FSErr REnt :=
  match rlookup fs (pathComps s) with
  | none => .error .entryNotFound
  | some ent =>
    let sc := pathComps s
    let dc0 := pathComps d
    let dc :=
      match rlookup fs dc0 with
      | some (.dir _) => dc0 ++ [sc.getLastD ""]
      | _ => dc0
    if sc.isPrefixOf dc then .error .genericFail
    else
      match rlookup fs dc with
      | some _ => .error .entryExists
      | none => rinsert (rdelete fs sc) dc ent

/-- Move of an archive-internal entry to an archive-internal destination:
the source subtree is read from the source archive chain, checked against
the destination (entering an existing destination directory under the
source's base name, rejecting collisions), removed from the source chain
and written renamed into the destination chain. -/
def moveZip (fs : REnt) (s : List Char) (ss : List (List Char)) (d : List Char)
    (ds : List (List Char)) : Except FSErr REnt :=
  match rlookup fs (pathComps s), rlookup fs (pathComps d) with
  | some (.file (.zip sentries)), some (.file (.zip dentries)) =>
    match zipChainGet sentries ss.dropLast, zipChainGet dentries ds.dropLast with
    | .ok sinner, .ok dinner =>
      let sleaf := ss.getLastD []
      let taken := zipTake sinner sleaf
      if taken.isEmpty then .error .entryNotFound
      else
        let dleaf0 := ds.getLastD []
        let dleaf :=
          if zipIsDir dinner dleaf0 then dleaf0 ++ '/' :: lastComp sleaf else dleaf0
        if (zipTake dinner dleaf).isEmpty = false then .error .entryExists
        else
          match zipChainModify sentries ss.dropLast
              (fun es => .ok (zipDrop es sleaf)) with
          | .error e => .error e
          | .ok sentries2 =>
            match rinsert fs (pathComps s) (.file (.zip sentries2)) with
            | .error e => .error e
            | .ok fs1 =>
              match rlookup fs1 (pathComps d) with
              | some (.file (.zip dentries1)) =>
                match zipChainModify dentries1 ds.dropLast
                    (fun es => .ok (es ++ zipRenameAll taken sleaf dleaf)) with
                | .error e => .error e
                | .ok dentries2 => rinsert fs1 (pathComps d) (.file (.zip dentries2))
              | _ => .error .entryNotFound
    | .error e, _ => .error e
    | _, .error e => .error e
  | some (.file (.raw _)), _ => .error .badZipFile
  | _, some (.file (.raw _)) => .error .badZipFile
  | none, _ => .error .entryNotFound
  | _, _ => .error .entryNotFound

/-- The move operation over composite paths (spec section 4.4 table and
section 8: relocating an entry across a ZIP boundary is rejected with
MoveAcrossZipError in both directions, since the underlying primitive
cannot rename in place across containers). -/
def move (fs : REnt) (src dst : List (List Char)) : Except FSErr REnt :=
  match src, dst with
  | [], _ => .error .entryNotFound
  | _, [] => .error .entryNotFound
  | _ :: _ :: _, [_] => .error .moveAcrossZip
  | [_], _ :: _ :: _ => .error .moveAcrossZip
  | [s], [d] => moveReal fs s d
  | s :: ss1 :: ss, d :: ds1 :: ds => moveZip fs s (ss1 :: ss) d (ds1 :: ds)

/-- The filesystem state after a `move` call: an error leaves the
filesystem unchanged (the rejection checks precede any mutation). -/
def moveState (fs : REnt) (src dst : List (List Char)) : REnt :=
  match move fs src dst with
  | .ok fs2 => fs2
  | .error _ => fs

/-- Dereference a symbolic link against the filesystem root (copy
dereferences links and copies the referenced content, spec section 4.4);
a dangling target, or a link chain, counts as broken. -/
def derefEnt (fs : REnt) (e : REnt) : Option REnt :=
  match e with
  | .symlink t =>
    match rlookup fs (pathComps t) with
    | some (.symlink _) => none
    | r => r
  | _ => some e

/-- Single fueled worker for the recursive copy.  A left input copies one
entity: symbolic links are replaced by their referenced content, a broken
link produces no copied entry and records its path as a failure, and
per-child failures do not abort sibling processing (spec section 7).  A
right input copies a child list.  Every recursive step consumes fuel;
`copy` passes a bound ample for any filesystem without link cycles. -/
def copyGo (fs : REnt) :
    Nat → Sum (REnt × List Char) (List (String × REnt) × List Char) →
    (Option REnt × List (String × REnt)) × List (List Char)
  | 0, .inl (_, pre) => ((none, []), [pre])
  | 0, .inr (_, _) => ((none, []), [])
  | fuel + 1, .inl (e, pre) =>
    match derefEnt fs e with
    | none => ((none, []), [pre])
    | some (.file z) => ((some (.file z), []), [])
    | some (.dir children) =>
      match copyGo fs fuel (.inr (children, pre)) with
      | ((_, ch2), fails) => ((some (.dir ch2), []), fails)
    | some (.symlink _) => ((none, []), [pre])
  | fuel + 1, .inr ([], _) => ((none, []), [])
  | fuel + 1, .inr ((n, c) :: rest, pre) =>
    match copyGo fs fuel (.inl (c, pre ++ '/' :: n.data)),
        copyGo fs fuel (.inr (rest, pre)) with
    | ((some ce, _), f1), ((_, ch2), f2) => ((none, (n, ce) :: ch2), f1 ++ f2)
    | ((none, _), f1), ((_, ch2), f2) => ((none, ch2), f1 ++ f2)

/-- Build the copied value of a source entity, collecting the paths of
the children that failed. -/
def copyVal (fs : REnt) (fuel : Nat) (e : REnt) (pre : List Char) :
    Option REnt × List (List Char) :=
  match copyGo fs fuel (.inl (e, pre)) with
  | ((r, _), fails) => (r, fails)

mutual

/-- Computable size of a filesystem tree (used as the symlink-chain fuel
bound for `copyVal`). -/
def rsize : REnt → Nat
  | .file _ => 1
  | .symlink _ => 1
  | .dir children => 1 + rsizeList children

/-- Computable size of a child list. -/
def rsizeList : List (String × REnt) → Nat
  | [] => 0
  | (_, c) :: rest => 1 + rsize c + rsizeList rest

end

mutual

/-- Flatten a copied entity into ZIP namelist entries under the prefix
`pre` (directories become explicit `.../` markers). -/
def entZipEntries (pre : List Char) : REnt → List (List Char × ZFile)
  | .file z => [(pre, z)]
  | .symlink _ => []
  | .dir children => (pre ++ ['/'], .raw []) :: entZipEntriesList pre children

/-- Flatten each child of a directory into ZIP namelist entries. -/
def entZipEntriesList (pre : List Char) : List (String × REnt) → List (List Char × ZFile)
  | [] => []
  | (n, c) :: rest => entZipEntries (pre ++ '/' :: n.data) c ++ entZipEntriesList pre rest

end

/-- Write a copied entity into a namelist at the leaf subpath, rejecting
collisions. -/
def zipCopyLeaf (dleaf : List Char) (cent : REnt) (entries : List (List Char × ZFile)) :
    Except FSErr (List (List Char × ZFile)) :=
  if (zipTake entries dleaf).isEmpty = false then .error .entryExists
  else .ok (entries ++ entZipEntries dleaf cent)

/-- The copy operation, modelled for a real-filesystem source (the
fragment the claims exercise; archive-internal sources are not modelled)
copying to a real or archive-internal destination: the source is looked
up and dereferenced (a broken source link raises EntryNotFound), the tree
is duplicated with inner links dereferenced and per-child failures
collected, the result is written at the destination, and when some
children failed the call additionally raises one PartialError carrying
the failed paths, with the successful copies kept (spec sections 4.4 and
7). -/
def copy (fs : REnt) (src : List Char) (dst : List (List Char)) : REnt × Option FSErr :=
  match rlookup fs (pathComps src) with
  | none => (fs, some .entryNotFound)
  | some ent =>
    match derefEnt fs ent with
    | none => (fs, some .entryNotFound)
    | some ent2 =>
      match copyVal fs ((rsize fs + 1) * (rsize fs + 1)) ent2 src with
      | (none, _) => (fs, some .entryNotFound)
      | (some cent, fails) =>
        match dst with
        | [] => (fs, some .entryNotFound)
        | [d] =>
          let sc := pathComps src
          let dc0 := pathComps d
          let dc :=
            match rlookup fs dc0 with
            | some (.dir _) => dc0 ++ [sc.getLastD ""]
            | _ => dc0
          match rlookup fs dc with
          | some _ => (fs, some .entryExists)
          | none =>
            match rinsert fs dc cent with
            | .ok fs2 => (fs2, if fails = [] then none else some (.partialFail fails))
            | .error e => (fs, some e)
        | d :: dsub :: dsubs =>
          match rlookup fs (pathComps d) with
          | some (.file (.zip entries)) =>
            match zipChainModify entries ((dsub :: dsubs).dropLast)
                (zipCopyLeaf ((dsub :: dsubs).getLastD []) cent) with
            | .ok entries2 =>
              match rinsert fs (pathComps d) (.file (.zip entries2)) with
              | .ok fs2 => (fs2, if fails = [] then none else some (.partialFail fails))
              | .error e => (fs, some e)
            | .error e => (fs, some e)
          | _ => (fs, some .entryNotFound)
/-! ## Claims on the filesystem layer -/

theorem setChild_self {children : List (String × REnt)} {n : String} {v : REnt}
    (h : findChild children n = some v) : setChild children n v = children := by
  induction children with
  | nil => simp [findChild] at h
  | cons p rest ih =>
    obtain ⟨m, e⟩ := p
    rw [findChild] at h
    rw [setChild]
    by_cases hm : m = n
    · subst hm
      simp only [if_pos] at h ⊢
      cases h
      rfl
    · simp only [hm, if_neg, not_false_iff] at h ⊢
      rw [ih h]

theorem rinsert_self {e : REnt} : ∀ {comps : List String} {v : REnt},
    rlookup e comps = some v → rinsert e comps v = .ok e := by
  intro comps
  induction comps generalizing e with
  | nil =>
    intro v h
    rw [rlookup] at h
    cases h
    rfl
  | cons n rest ih =>
    intro v h
    cases e with
    | file z => simp [rlookup] at h
    | symlink t => simp [rlookup] at h
    | dir children =>
      rw [rlookup] at h
      cases hf : findChild children n with
      | none => simp [hf] at h
      | some ch =>
        simp only [hf] at h
        cases rest with
        | nil =>
          rw [rlookup] at h
          cases h
          rw [rinsert, setChild_self hf]
        | cons n2 rest2 =>
          rw [rinsert]
          simp only [hf]
          rw [ih h]
          simp only [Except.map]
          rw [setChild_self hf]
/-- C9: mkdir on a composite path addressing an archive root succeeds
without raising and leaves the filesystem, hence the archive's entry
namelist, unchanged: the archive root always implicitly exists. -/
theorem mkdir_archive_root_noop (fs : REnt) (p : List Char)
    (entries : List (List Char × ZFile))
    (h : rlookup fs (pathComps p) = some (.file (.zip entries))) :
    mkdir fs [p, []] = .ok fs := by
  rw [mkdir]
  simp only [h]
  rw [List.dropLast]
  rw [zipChainModify]
  rw [zipMkdirLeaf]
  simp only [List.getLastD, if_pos]
  exact rinsert_self h

/-- Fixture for the archive-root mkdir (TestMkDir.test_zip_dir_root): a
root directory holding one empty valid ZIP archive. -/
def archiveRootFs : REnt := .dir [("root", .dir [("archive.zip", .file (.zip []))])]

/-- Witness for `mkdir_archive_root_noop` at the test fixture. -/
theorem mkdir_archive_root_noop_witness :
    mkdir archiveRootFs ["root/archive.zip".data, []] = .ok archiveRootFs :=
  mkdir_archive_root_noop archiveRootFs "root/archive.zip".data [] rfl

/-- C3: move raises FSMoveAcrossZipError whenever exactly one of source
and destination lies inside a ZIP archive — both directions — and the
failed call leaves the filesystem (hence the source entry) unchanged. -/
theorem move_rejects_cross_container (fs : REnt) (p q : List Char)
    (sub : List (List Char)) (h : sub ≠ []) :
    move fs (p :: sub) [q] = .error .moveAcrossZip ∧
    move fs [q] (p :: sub) = .error .moveAcrossZip ∧
    moveState fs (p :: sub) [q] = fs ∧ moveState fs [q] (p :: sub) = fs := by
  match sub, h with
  | s :: ss, _ =>
    refine ⟨rfl, rfl, ?_, ?_⟩ <;> rfl

/-- Witness for `move_rejects_cross_container` at the disk-to-zip and
zip-to-disk test fixtures (TestMove.test_disk_to_zip /
test_zip_to_disk). -/
theorem move_rejects_cross_container_witness :
    move archiveRootFs ["root/archive.zip".data, "deep/subdir".data] ["root/subdir".data]
        = .error .moveAcrossZip ∧
    move archiveRootFs ["root/subdir".data] ["root/archive.zip".data, "deep/subdir".data]
        = .error .moveAcrossZip ∧
    moveState archiveRootFs ["root/archive.zip".data, "deep/subdir".data]
        ["root/subdir".data] = archiveRootFs ∧
    moveState archiveRootFs ["root/subdir".data]
        ["root/archive.zip".data, "deep/subdir".data] = archiveRootFs :=
  move_rejects_cross_container archiveRootFs "root/archive.zip".data "root/subdir".data
    ["deep/subdir".data] (by simp)
/-! ### Archive-boundary precedence fixtures

Concrete filesystems mirroring TestCPath.test_resolve2/test_resolve3 and
the spec's worked example for the probe order on
`root/entry.zip!/entry1.zip!/`. -/

/-- An empty valid ZIP archive. -/
def zempty : ZFile := .zip []

/-- Explicit directory literally named `entry.zip!/entry1.zip!` present. -/
def fsLitSubdir : REnt := .dir [("root", .dir [
  ("entry.zip!", .dir [("entry1.zip!", .dir []), ("entry1.zip", .file zempty)]),
  ("entry.zip", .file zempty)])]

/-- File literally named `entry1.zip!` inside directory `entry.zip!`. -/
def fsLitFile : REnt := .dir [("root", .dir [
  ("entry.zip!", .dir [("entry1.zip!", .file (.raw [])), ("entry1.zip", .file zempty)]),
  ("entry.zip", .file zempty)])]

/-- Only the bare `entry1.zip`, a valid ZIP, inside directory
`entry.zip!`. -/
def fsNestedZip : REnt := .dir [("root", .dir [
  ("entry.zip!", .dir [("entry1.zip", .file zempty)]),
  ("entry.zip", .file zempty)])]

/-- Directory `entry.zip!` exists but holds nothing relevant. -/
def fsLitDirOnly : REnt := .dir [("root", .dir [
  ("entry.zip!", .dir []),
  ("entry.zip", .file zempty)])]

/-- File literally named `entry.zip!` exists. -/
def fsLitFileOnly : REnt := .dir [("root", .dir [
  ("entry.zip!", .file (.raw [])),
  ("entry.zip", .file zempty)])]

/-- Only the plain valid ZIP `entry.zip` exists. -/
def fsZipOnly : REnt := .dir [("root", .dir [("entry.zip", .file zempty)])]

/-- Only a non-ZIP file named `entry.zip` exists. -/
def fsRawOnly : REnt := .dir [("root", .dir [("entry.zip", .file (.raw []))])]

/-- The spec's literal scenario: `entry.zip` contains the explicit
directory member `entry1.zip!/` and the valid nested ZIP member
`entry1.zip`. -/
def fsSpecLiteral : REnt := .dir [("root", .dir [("entry.zip", .file (.zip [
  ("entry1.zip!/".data, .raw []),
  ("entry1.zip".data, zempty)]))])]

/-- In-archive boundary with a crossable nested ZIP member
(test_resolve3, `entry1.zip!/entry2.zip` case). -/
def fsInnerNested : REnt := .dir [("root", .dir [("entry.zip", .file (.zip [
  ("entry1.zip!/entry2.zip".data, zempty),
  ("entry1.zip!/".data, .raw []),
  ("entry1.zip".data, .zip [("entry2.zip!".data, .raw []), ("entry2.zip".data, zempty)])]))])]

/-- Doubly nested archives only (test_resolve3, `entry1.zip entry2.zip`
case). -/
def fsDoubleNested : REnt := .dir [("root", .dir [("entry.zip", .file (.zip [
  ("entry1.zip".data, .zip [("entry2.zip".data, zempty)])]))])]

/-- C2: CPath.resolve settles each candidate `!/` boundary by the fixed
descending-specificity probe order, first match wins: explicit directory
named with trailing `!` over file named with trailing `!` over the bare
name as a valid (possibly nested) ZIP over the archive root over the
literal on-disk name over the plain valid ZIP; when nothing matches at
any level the result is one real segment equal to the normalized original
string. -/
theorem resolve_probe_order :
    resolve fsLitSubdir "root/entry.zip!/entry1.zip!/".data
      = ["root/entry.zip!/entry1.zip!".data] ∧
    resolve fsLitFile "root/entry.zip!/entry1.zip!/".data
      = ["root/entry.zip!/entry1.zip!".data] ∧
    resolve fsNestedZip "root/entry.zip!/entry1.zip!/".data
      = ["root/entry.zip!/entry1.zip".data, []] ∧
    resolve fsLitDirOnly "root/entry.zip!/entry1.zip!/".data
      = ["root/entry.zip!/entry1.zip!".data] ∧
    resolve fsLitFileOnly "root/entry.zip!/entry1.zip!/".data
      = ["root/entry.zip!/entry1.zip!".data] ∧
    resolve fsZipOnly "root/entry.zip!/entry1.zip!/".data
      = ["root/entry.zip".data, "entry1.zip!".data] ∧
    resolve fsRawOnly "root/entry.zip!/entry1.zip!/".data
      = ["root/entry.zip!/entry1.zip!".data] ∧
    resolve fsSpecLiteral "root/entry.zip!/entry1.zip!/".data
      = ["root/entry.zip".data, "entry1.zip!".data] ∧
    resolve fsInnerNested "root/entry.zip!/entry1.zip!/entry2.zip!/".data
      = ["root/entry.zip".data, "entry1.zip!/entry2.zip".data, []] ∧
    resolve fsDoubleNested "root/entry.zip!/entry1.zip!/entry2.zip!/".data
      = ["root/entry.zip".data, "entry1.zip".data, "entry2.zip".data, []] :=
  ⟨rfl, rfl, rfl, rfl, rfl, rfl, rfl, rfl, rfl, rfl⟩
/-- C8 counterexample: against the fixture of TestCPath.test_resolve1, the
path string `root/entry.zip!/subdir/` carries a single trailing `/`, yet
it does not resolve to a composite path with an empty final subpath
segment, and its resolution is not distinct from the same string without
the trailing slash — refuting the claim that every path string with a
single trailing `/` resolves to an empty final segment distinct from the
slash-less resolution. -/
theorem trailing_slash_claim_cex :
    resolve fsZipOnly "root/entry.zip!/subdir/".data
      = ["root/entry.zip".data, "subdir".data] ∧
    resolve fsZipOnly "root/entry.zip!/subdir".data
      = resolve fsZipOnly "root/entry.zip!/subdir/".data ∧
    ("subdir".data : List Char) ≠ [] :=
  ⟨rfl, rfl, by decide⟩

/-- C8 (amended): a trailing `/` immediately after an archive marker `!`
(the string ends in `!/`) resolves to a composite path whose final
subpath segment is the empty string, denoting the archive root, and this
is distinct from resolving the same string without the trailing slash,
which yields the literal real path; a trailing `/` elsewhere is merely
stripped. -/
theorem trailing_slash_after_bang :
    resolve fsZipOnly "root/entry.zip!/".data = ["root/entry.zip".data, []] ∧
    resolve fsZipOnly "root/entry.zip!".data = ["root/entry.zip!".data] ∧
    resolve fsZipOnly "root/entry.zip!/".data ≠ resolve fsZipOnly "root/entry.zip!".data ∧
    resolve fsZipOnly "root/entry.zip!/subdir/".data
      = resolve fsZipOnly "root/entry.zip!/subdir".data :=
  ⟨rfl, rfl, by decide, rfl⟩

/-! ### Copy with a broken symbolic link -/

/-- Fixture for TestCopy.test_symlink_to_nonexist_deep2 and
test_disk_to_zip_symlink_to_nonexist_deep2: a directory holding a broken
symbolic link and one regular file, plus an empty archive for the
disk-to-zip variant. -/
def brokenLinkFs : REnt := .dir [("root", .dir [
  ("subdir", .dir [
    ("symlink", .symlink "root/nonexist".data),
    ("file.txt", .file (.raw "Lorem ipsum dolor sit amet".data))]),
  ("archive.zip", .file (.zip []))])]

/-- C4: recursively copying a directory that contains one broken symbolic
link and one regular file copies the regular file to the destination,
creates no entry for the broken link, and raises exactly one PartialError
listing only the broken link's failure — for a real destination and for
an archive destination alike — while leaving the source unchanged. -/
theorem copy_partial_failure :
    (copy brokenLinkFs "root/subdir".data ["root/newdir".data]).2
      = some (.partialFail ["root/subdir/symlink".data]) ∧
    rlookup (copy brokenLinkFs "root/subdir".data ["root/newdir".data]).1
        ["root", "newdir"]
      = some (.dir [("file.txt", .file (.raw "Lorem ipsum dolor sit amet".data))]) ∧
    rlookup (copy brokenLinkFs "root/subdir".data ["root/newdir".data]).1
        ["root", "newdir", "symlink"] = none ∧
    rlookup (copy brokenLinkFs "root/subdir".data ["root/newdir".data]).1
        ["root", "subdir"]
      = rlookup brokenLinkFs ["root", "subdir"] ∧
    (copy brokenLinkFs "root/subdir".data ["root/archive.zip".data, "deep/newdir".data]).2
      = some (.partialFail ["root/subdir/symlink".data]) ∧
    rlookup (copy brokenLinkFs "root/subdir".data
        ["root/archive.zip".data, "deep/newdir".data]).1 ["root", "archive.zip"]
      = some (.file (.zip [("deep/newdir/".data, .raw []),
          ("deep/newdir/file.txt".data, .raw "Lorem ipsum dolor sit amet".data)])) :=
  ⟨rfl, rfl, rfl, rfl, rfl, rfl⟩
/-! ### Normal form of archive subpath segments -/

/-- A normalized archive subpath: the empty string (archive root), or a
POSIX-relative path whose components are all nonempty and none of which
is `.` or `..`. -/
def isNormalSub (s : List Char) : Bool :=
  s = [] || (splitSep '/' s).all fun c => c ≠ [] && c ≠ ['.'] && c ≠ ['.', '.']

theorem splitSep_ne_nil (sep : Char) (cs : List Char) : splitSep sep cs ≠ [] := by
  cases cs with
  | nil => simp [splitSep]
  | cons c rest =>
    rw [splitSep]
    by_cases hc : c = sep
    · simp [hc]
    · simp only [hc, if_neg, not_false_iff]
      cases h : splitSep sep rest with
      | nil => simp
      | cons p ps => simp

theorem splitSep_chars (sep : Char) (cs : List Char) :
    ∀ x ∈ splitSep sep cs, sep ∉ x := by
  induction cs with
  | nil => intro x hx; simp [splitSep] at hx; simp [hx]
  | cons c rest ih =>
    intro x hx
    rw [splitSep] at hx
    by_cases hc : c = sep
    · simp only [hc, if_pos] at hx
      cases hx with
      | head => simp
      | tail _ h => exact ih x h
    · simp only [hc, if_neg, not_false_iff] at hx
      cases hps : splitSep sep rest with
      | nil => exact absurd hps (splitSep_ne_nil sep rest)
      | cons p ps =>
        rw [hps] at hx
        cases hx with
        | head =>
          have hp : sep ∉ p := ih p (hps ▸ List.mem_cons_self p ps)
          intro hmem
          cases List.mem_cons.1 hmem with
          | inl h => exact hc h.symm
          | inr h => exact hp h
        | tail _ h => exact ih x (hps ▸ List.mem_cons_of_mem p h)

theorem splitSep_single {p : List Char} (h : '/' ∉ p) : splitSep '/' p = [p] := by
  induction p with
  | nil => simp [splitSep]
  | cons c rest ih =>
    rw [splitSep]
    have hc : c ≠ '/' := fun hc => h (hc ▸ List.mem_cons_self c rest)
    have hr : '/' ∉ rest := fun hr => h (List.mem_cons_of_mem c hr)
    simp [hc, ih hr]

theorem splitSep_append {p : List Char} (t : List Char) (h : '/' ∉ p) :
    splitSep '/' (p ++ '/' :: t) = p :: splitSep '/' t := by
  induction p with
  | nil => simp [splitSep]
  | cons c rest ih =>
    have hc : c ≠ '/' := fun hc => h (hc ▸ List.mem_cons_self c rest)
    have hr : '/' ∉ rest := fun hr => h (List.mem_cons_of_mem c hr)
    rw [List.cons_append, splitSep]
    simp [hc, ih hr]

theorem splitSep_joinSlash : ∀ l : List (List Char), l ≠ [] →
    (∀ x ∈ l, '/' ∉ x) → splitSep '/' (joinSlash l) = l := by
  intro l
  induction l with
  | nil => intro h; exact absurd rfl h
  | cons p rest ih =>
    intro _ hx
    cases rest with
    | nil =>
      rw [joinSlash]
      exact splitSep_single (hx p (List.mem_cons_self p []))
    | cons p2 rest2 =>
      rw [joinSlash]
      rw [splitSep_append _ (hx p (List.mem_cons_self p _))]
      rw [ih (fun hh => List.noConfusion hh) fun x h => hx x (List.mem_cons_of_mem p h)]
      exact fun hh => List.noConfusion hh

/-- Goodness of a normalized component. -/
def goodComp (c : List Char) : Prop :=
  c ≠ [] ∧ c ≠ ['.'] ∧ c ≠ ['.', '.'] ∧ '/' ∉ c

theorem normComps_good : ∀ (l acc : List (List Char)),
    (∀ x ∈ acc, goodComp x) → (∀ x ∈ l, '/' ∉ x) →
    ∀ x ∈ normComps acc l, goodComp x := by
  intro l
  induction l with
  | nil =>
    intro acc hacc _ x hx
    rw [normComps] at hx
    exact hacc x (List.mem_reverse.1 hx)
  | cons c rest ih =>
    intro acc hacc hl x hx
    rw [normComps] at hx
    by_cases h1 : c = [] ∨ c = ['.']
    · simp only [h1, if_pos] at hx
      exact ih acc hacc (fun y hy => hl y (List.mem_cons_of_mem c hy)) x hx
    · simp only [h1, if_neg, not_false_iff] at hx
      by_cases h2 : c = ['.', '.']
      · simp only [h2, if_pos] at hx
        exact ih (acc.drop 1) (fun y hy => hacc y (List.drop_subset 1 acc hy))
          (fun y hy => hl y (List.mem_cons_of_mem c hy)) x hx
      · simp only [h2, if_neg, not_false_iff] at hx
        refine ih (c :: acc) ?_ (fun y hy => hl y (List.mem_cons_of_mem c hy)) x hx
        intro y hy
        cases hy with
        | head =>
          push_neg at h1
          exact ⟨h1.1, h1.2, h2, hl c (List.mem_cons_self c rest)⟩
        | tail _ h => exact hacc y h

theorem isNormalSub_posixNorm (s : List Char) : isNormalSub (posixNorm s) = true := by
  rw [posixNorm]
  have hg : ∀ x ∈ normComps [] (splitSep '/' s), goodComp x :=
    normComps_good (splitSep '/' s) [] (by simp) (splitSep_chars '/' s)
  cases hn : normComps [] (splitSep '/' s) with
  | nil => simp [joinSlash, isNormalSub]
  | cons p rest =>
    rw [hn] at hg
    have hall : ((p :: rest).all fun c => c ≠ [] && c ≠ ['.'] && c ≠ ['.', '.']) = true := by
      rw [List.all_eq_true]
      intro x hx
      obtain ⟨g1, g2, g3, _⟩ := hg x hx
      simp [g1, g2, g3]
    rw [isNormalSub, splitSep_joinSlash (p :: rest) (fun hh => List.noConfusion hh)
      (fun x hx => (hg x hx).2.2.2)]
    rw [hall]
    simp

theorem zipScan_normal : ∀ (rest : List (List Char)) (es : List (List Char × ZFile))
    (done : List (List Char)), (zipScan es done rest).all isNormalSub = true := by
  intro rest
  induction rest with
  | nil =>
    intro es done
    simp [zipScan, isNormalSub_posixNorm]
  | cons r rs ih =>
    intro es done
    rw [zipScan]
    by_cases hl : zipHasLiteral es (posixNorm (joinBang done) ++ ['!']) = true
    · simp only [hl, if_pos]
      exact ih es (done ++ [r])
    · simp only [hl, if_neg, not_false_iff, Bool.not_eq_true]
      cases hf : zipFind es (posixNorm (joinBang done)) with
      | none => exact ih es (done ++ [r])
      | some z =>
        cases z with
        | raw content => exact ih es (done ++ [r])
        | zip es2 =>
          simp only [List.all_cons, isNormalSub_posixNorm, Bool.true_and]
          exact ih es2 [r]

theorem diskScan_normal : ∀ (rest : List (List Char)) (fs : REnt)
    (done : List (List Char)), ((diskScan fs done rest).drop 1).all isNormalSub = true := by
  intro rest
  induction rest with
  | nil => intro fs done; simp [diskScan]
  | cons r rs ih =>
    intro fs done
    rw [diskScan]
    by_cases hs : (rlookup fs (pathComps (joinBang done ++ ['!']))).isSome = true
    · simp only [hs, if_pos]
      exact ih fs (done ++ [r])
    · simp only [hs, if_neg, not_false_iff, Bool.not_eq_true]
      cases hf : rlookup fs (pathComps (joinBang done)) with
      | none => exact ih fs (done ++ [r])
      | some e =>
        match e with
        | .dir ch => exact ih fs (done ++ [r])
        | .symlink t => exact ih fs (done ++ [r])
        | .file (.raw content) => exact ih fs (done ++ [r])
        | .file (.zip es) =>
          simp only [List.drop_succ_cons, List.drop_zero]
          exact zipScan_normal rs es [r]

/-- C10: archive subpaths cannot escape their archive: for every
filesystem and every input string, each sub-archive segment of the
composite path returned by resolve is in normal POSIX-relative form (all
`.` and `..` components resolved away), and surplus `..` components clamp
at the archive root — resolving `root/entry.zip!/../../` yields
`[root/entry.zip, ""]` rather than crossing back into the enclosing real
path. -/
theorem resolve_subpaths_normalized :
    (∀ (fs : REnt) (s : List Char), ((resolve fs s).drop 1).all isNormalSub = true) ∧
    resolve fsZipOnly "root/entry.zip!/../../".data = ["root/entry.zip".data, []] := by
  constructor
  · intro fs s
    rw [resolve]
    cases hb : splitBang s with
    | nil => simp
    | cons p ps => exact diskScan_normal ps fs [p]
  · rfl
/-! ## Reserialization lemmas -/

theorem isPrefixOf_extend {t l z : List Char} (h : t.isPrefixOf l = true) :
    t.isPrefixOf (l ++ z) = true := by
  rw [List.isPrefixOf_iff_prefix] at h ⊢
  exact h.trans (List.prefix_append l z)

theorem findTerm_boundary {term : List Char} (hne : term ≠ []) :
    ∀ (pre suf : List Char),
    (∀ p2 : List Char, p2 ≠ [] → p2.isSuffixOf pre = true →
      term.isPrefixOf (p2 ++ term ++ suf) = false) →
    findTerm term (pre ++ term ++ suf) = some (pre, suf) := by
  intro pre
  induction pre with
  | nil =>
    intro suf _
    simp only [List.nil_append]
    match term, hne with
    | t0 :: trest, _ =>
      have hp : (t0 :: trest).isPrefixOf ((t0 :: trest) ++ suf) = true :=
        List.isPrefixOf_iff_prefix.2 (List.prefix_append _ _)
      rw [findTerm.eq_def]
      simp only [List.cons_append] at hp ⊢
      simp only [hp, if_pos]
      rw [← List.cons_append, List.drop_left]
  | cons a rest ih =>
    intro suf h
    have hnp : term.isPrefixOf (((a :: rest) ++ term) ++ suf) = false :=
      h (a :: rest) (by simp)
        (List.isSuffixOf_iff_suffix.2 (List.suffix_refl _))
    simp only [List.cons_append] at hnp ⊢
    rw [findTerm.eq_def]
    simp only [List.append_assoc] at hnp
    simp only [hnp, Bool.false_eq_true, if_neg, not_false_iff, List.append_assoc]
    have hih := ih suf fun p2 hp2 hsf => h p2 hp2 (by
      rw [List.isSuffixOf_iff_suffix] at hsf ⊢
      exact hsf.trans (List.suffix_cons a rest))
    simp only [List.append_assoc] at hih
    rw [hih]

theorem hasSub_of_parts {t : List Char} (hne : t ≠ []) :
    ∀ (a b : List Char), hasSub t (a ++ t ++ b) = true := by
  intro a
  induction a with
  | nil =>
    intro b
    match t, hne with
    | c :: t', _ =>
      have hp : (c :: t').isPrefixOf ((c :: t') ++ b) = true :=
        List.isPrefixOf_iff_prefix.2 (List.prefix_append (c :: t') b)
      simp only [List.nil_append, List.cons_append] at hp ⊢
      simp [hasSub, hp]
  | cons x xs ih =>
    intro b
    simp only [List.cons_append, hasSub, List.append_eq]
    rw [ih b]
    simp

theorem hasSub_mem {t l : List Char} (h : hasSub t l = true) {x : Char}
    (hx : x ∈ t) : x ∈ l := by
  induction l with
  | nil =>
    rw [hasSub, List.isEmpty_iff] at h
    subst h
    cases hx
  | cons c rest ih =>
    rw [hasSub, Bool.or_eq_true] at h
    rcases h with h | h
    · rcases List.isPrefixOf_iff_prefix.1 h with ⟨s, hs⟩
      rw [← hs]
      exact List.mem_append.2 (Or.inl hx)
    · exact List.mem_cons_of_mem _ (ih h)

theorem hasSub_single {x : Char} {l : List Char} (h : x ∉ l) :
    hasSub [x] l = false := by
  induction l with
  | nil => rfl
  | cons c rest ih =>
    rw [hasSub]
    have hx : x ≠ c := fun he => h (he ▸ List.mem_cons_self c rest)
    have h2 : x ∉ rest := fun he => h (List.mem_cons_of_mem _ he)
    have hp : ([x]).isPrefixOf (c :: rest) = false := by
      simp [List.isPrefixOf, hx]
    rw [hp, ih h2]
    rfl

theorem findTerm_none_not_sub {t : List Char} (hne : t ≠ []) :
    ∀ {cs : List Char}, findTerm t cs = none → hasSub t cs = false := by
  intro cs
  induction cs with
  | nil =>
    intro _
    match t, hne with
    | c :: t', _ => rfl
  | cons c rest ih =>
    intro h
    by_cases hp : t.isPrefixOf (c :: rest) = true
    · exfalso
      rw [findTerm.eq_def] at h
      simp [hp] at h
    · have h2 : findTerm t rest = none := by
        rw [findTerm.eq_def] at h
        simp only [hp, if_neg, Bool.false_eq_true, not_false_iff] at h
        cases hft : findTerm t rest with
        | none => rfl
        | some ps =>
          obtain ⟨p, s⟩ := ps
          rw [hft] at h
          exact absurd h (by simp)
      rw [hasSub, ih h2]
      simp only [Bool.or_false]
      exact Bool.eq_false_iff.2 hp

theorem findTerm_pre_not_sub {t : List Char} (hne : t ≠ []) :
    ∀ {cs pre suf : List Char}, findTerm t cs = some (pre, suf) →
      hasSub t pre = false := by
  intro cs
  induction cs with
  | nil =>
    intro pre suf h
    rw [findTerm] at h
    cases h
  | cons c rest ih =>
    intro pre suf h
    by_cases hp : t.isPrefixOf (c :: rest) = true
    · rw [findTerm.eq_def] at h
      simp only [hp, if_pos] at h
      obtain ⟨h1, h2⟩ := Prod.mk.injEq .. ▸ Option.some.injEq .. ▸ h
      subst h1
      match t, hne with
      | x :: t', _ => rfl
    · rw [findTerm.eq_def] at h
      simp only [hp, if_neg, Bool.false_eq_true, not_false_iff] at h
      cases hft : findTerm t rest with
      | none => rw [hft] at h; exact absurd h (by simp)
      | some ps =>
        obtain ⟨p, s⟩ := ps
        rw [hft] at h
        obtain ⟨h1, h2⟩ := Prod.mk.injEq .. ▸ Option.some.injEq .. ▸ h
        subst h1
        rw [hasSub, ih hft]
        simp only [Bool.or_false]
        by_cases hq : t.isPrefixOf (c :: p) = true
        · exfalso
          have happ : p ++ t ++ s = rest := findTerm_eq_append hft
          have : t.isPrefixOf ((c :: p) ++ (t ++ s)) = true := isPrefixOf_extend hq
          rw [show (c :: p) ++ (t ++ s) = c :: rest by
            rw [← happ]; simp] at this
          exact hp this
        · exact Bool.eq_false_iff.2 hq

theorem findTerm_clean {term : List Char} (hne : term ≠ [])
    (hov : ∀ k, 0 < k → k < term.length →
      term.drop k ≠ term.take (term.length - k))
    (pre suf : List Char) (hsub : hasSub term pre = false) :
    findTerm term (pre ++ term ++ suf) = some (pre, suf) := by
  apply findTerm_boundary hne
  intro p2 hp2 hsf
  by_contra hc
  have hc' : term.isPrefixOf (p2 ++ term ++ suf) = true := by
    cases hb : term.isPrefixOf (p2 ++ term ++ suf) with
    | true => rfl
    | false => exact absurd hb hc
  have hpref : term <+: p2 ++ (term ++ suf) := by
    have := List.isPrefixOf_iff_prefix.1 hc'
    simpa [List.append_assoc] using this
  have htake : term = p2.take term.length ++ (term ++ suf).take (term.length - p2.length) := by
    have h1 := List.prefix_iff_eq_take.1 hpref
    rw [List.take_append_eq_append_take] at h1
    exact h1
  by_cases hk : term.length ≤ p2.length
  · -- the occurrence lies entirely inside `pre`
    have h0 : term.length - p2.length = 0 := Nat.sub_eq_zero_of_le hk
    rw [h0] at htake
    simp only [List.take_zero, List.append_nil] at htake
    have hpp : term <+: p2 := htake ▸ List.take_prefix term.length p2
    rcases hpp with ⟨u, hu⟩
    rcases List.isSuffixOf_iff_suffix.1 hsf with ⟨v, hv⟩
    have : pre = v ++ term ++ u := by rw [← hv, ← hu]; simp
    rw [this] at hsub
    rw [hasSub_of_parts hne v u] at hsub
    cases hsub
  · -- the occurrence straddles the boundary: `term` would overlap itself
    push_neg at hk
    have hp2t : p2.take term.length = p2 := List.take_all_of_le (Nat.le_of_lt hk)
    have hts : (term ++ suf).take (term.length - p2.length) =
        term.take (term.length - p2.length) :=
      List.take_append_of_le_length (Nat.sub_le _ _)
    rw [hp2t, hts] at htake
    have hdrop : term.drop p2.length = term.take (term.length - p2.length) := by
      conv_lhs => rw [htake]
      rw [show p2.length = (p2).length from rfl]
      exact List.drop_left p2 _
    have hkpos : 0 < p2.length := List.length_pos.2 hp2
    exact hov p2.length hkpos hk hdrop

theorem scan_nil (xhtml : Bool) (fuel : Nat) (fg : Option (List Char × Nat)) :
    scan xhtml fuel fg [] = [] := by
  cases fuel with
  | zero => rfl
  | succ k => rfl

theorem constructStart_cons2 (a b : Char) (l l' : List Char) :
    constructStart (a :: b :: l) = constructStart (a :: b :: l') := by
  by_cases ha : a = '<'
  · subst ha
    simp [constructStart]
  · simp [constructStart, ha]

theorem constructStart_true_shape {r : List Char} (h : constructStart r = true) :
    ∃ d rr, r = '<' :: d :: rr ∧
      (d = '!' ∨ d = '?' ∨ d = '/' ∨ isAsciiAlpha d = true) := by
  match r with
  | [] => exact absurd h (by simp [constructStart])
  | [r0] => exact absurd h (by simp [constructStart])
  | r0 :: r1 :: rs =>
    by_cases h0 : r0 = '<'
    · subst h0
      refine ⟨r1, rs, rfl, ?_⟩
      have := h
      simp only [constructStart, Bool.or_eq_true, decide_eq_true_eq] at this
      tauto
    · exact absurd h (by simp [constructStart, h0])

/-- Text content that re-parses as one text run: nonempty, with no markup
construct starting inside it. -/
def textOk : List Char → Bool
  | [] => false
  | [_] => true
  | x :: y :: rest => !constructStart (x :: y :: rest) && textOk (y :: rest)

/-- What may follow a rendered text token so that the text is cut exactly
there: end of input or the start of a markup construct. -/
def nextOk (r : List Char) : Bool :=
  r.isEmpty || constructStart r

theorem takeText_exact : ∀ {c : List Char}, textOk c = true →
    ∀ {r : List Char}, nextOk r = true → takeText (c ++ r) = (c, r) := by
  intro c
  induction c with
  | nil => intro h; cases h
  | cons x xs ih =>
    intro h r hr
    cases xs with
    | nil =>
      cases r with
      | nil => simp [takeText, constructStart]
      | cons r0 rs =>
        have hcr : constructStart (r0 :: rs) = true := by
          simpa [nextOk] using hr
        rcases constructStart_true_shape hcr with ⟨d, rr, hshape, _⟩
        injection hshape with hh1 hh2
        subst hh1
        subst hh2
        have hcs : constructStart (x :: '<' :: d :: rr) = false := by
          by_cases hx : x = '<'
          · subst hx
            simp [constructStart]
            decide
          · simp [constructStart, hx]
        rw [List.cons_append, List.nil_append, takeText]
        simp [hcs, takeText, hcr]
    | cons y ys =>
      simp only [textOk, Bool.and_eq_true, Bool.not_eq_true'] at h
      have h1 : constructStart (x :: y :: (ys ++ r)) = false :=
        (constructStart_cons2 x y (ys ++ r) ys).symm ▸ h.1
      have h2 := ih h.2 hr
      rw [List.cons_append, takeText]
      simp only [List.cons_append] at h1
      simp [h1]
      rw [List.cons_append] at h2
      simp [h2]

theorem takeText_textOk : ∀ {cs pre suf : List Char},
    takeText cs = (pre, suf) → pre ≠ [] → textOk pre = true := by
  intro cs
  induction cs with
  | nil =>
    intro pre suf h hne
    rw [takeText] at h
    obtain ⟨h1, h2⟩ := Prod.mk.injEq .. ▸ h
    exact absurd h1.symm hne
  | cons c rest ih =>
    intro pre suf h hne
    rw [takeText] at h
    by_cases hcs : constructStart (c :: rest) = true
    · rw [if_pos hcs] at h
      obtain ⟨h1, h2⟩ := Prod.mk.injEq .. ▸ h
      exact absurd h1.symm hne
    · rw [if_neg hcs] at h
      rcases htt : takeText rest with ⟨p, s⟩
      rw [htt] at h
      obtain ⟨h1, h2⟩ := Prod.mk.injEq .. ▸ h
      subst h1
      cases hp : p with
      | nil => rfl
      | cons p0 ps =>
        have hok := ih htt (by simp [hp])
        rw [hp] at hok
        have hta := takeText_append rest
        rw [htt] at hta
        simp only at hta
        rw [textOk]
        rw [hp] at hta
        have hcs2 : constructStart (c :: p0 :: (ps ++ s)) = false := by
          rw [show p0 :: (ps ++ s) = (p0 :: ps) ++ s by simp, hta]
          exact Bool.eq_false_iff.2 hcs
        rw [constructStart_cons2 c p0 ps (ps ++ s), hcs2, hok]
        rfl

theorem takeText_nextOk : ∀ {cs pre suf : List Char},
    takeText cs = (pre, suf) → nextOk suf = true := by
  intro cs
  induction cs with
  | nil =>
    intro pre suf h
    rw [takeText] at h
    obtain ⟨h1, h2⟩ := Prod.mk.injEq .. ▸ h
    subst h2
    rfl
  | cons c rest ih =>
    intro pre suf h
    rw [takeText] at h
    by_cases hcs : constructStart (c :: rest) = true
    · rw [if_pos hcs] at h
      obtain ⟨h1, h2⟩ := Prod.mk.injEq .. ▸ h
      subst h2
      simp [nextOk, hcs]
    · rw [if_neg hcs] at h
      rcases htt : takeText rest with ⟨p, s⟩
      rw [htt] at h
      obtain ⟨h1, h2⟩ := Prod.mk.injEq .. ▸ h
      subst h2
      exact ih htt

theorem scan_bang (xhtml : Bool) (fuel : Nat) (fg : Option (List Char × Nat))
    (rest : List Char) :
    scan xhtml (fuel + 1) fg ('<' :: '!' :: rest) =
      (parseBang rest).1 :: scan xhtml fuel fg (parseBang rest).2 := by
  rcases hp : parseBang rest with ⟨tok, r1⟩
  rw [scan]
  simp [hp]

theorem scan_pi (xhtml : Bool) (fuel : Nat) (fg : Option (List Char × Nat))
    (rest : List Char) :
    scan xhtml (fuel + 1) fg ('<' :: '?' :: rest) =
      (parsePI rest).1 :: scan xhtml fuel fg (parsePI rest).2 := by
  rcases hp : parsePI rest with ⟨tok, r1⟩
  rw [scan]
  simp [hp]

theorem scan_text {c : List Char} (hok : textOk c = true) {r : List Char}
    (hnx : nextOk r = true) (xhtml : Bool) (fuel : Nat)
    (fg : Option (List Char × Nat)) :
    scan xhtml (fuel + 1) fg (c ++ r) =
      { data := .text c, hidden := false, src := some c } :: scan xhtml fuel fg r := by
  match c, hok with
  | [], h => exact absurd h (by simp [textOk])
  | [x], _ =>
    cases r with
    | nil => simp [scan, scan_nil]
    | cons r0 rs =>
      have hcr : constructStart (r0 :: rs) = true := by
        simpa [nextOk] using hnx
      rcases constructStart_true_shape hcr with ⟨d, rr, hshape, hd⟩
      injection hshape with hh1 hh2
      subst hh1
      subst hh2
      rw [List.cons_append, List.nil_append, scan]
      have htt : takeText (x :: '<' :: d :: rr) = ([x], '<' :: d :: rr) := by
        have := takeText_exact (c := [x]) rfl (r := '<' :: d :: rr)
          (by simp [nextOk, hcr])
        simpa using this
      by_cases hx : x = '<'
      · subst hx
        have hal : isAsciiAlpha '<' = false := by decide
        simp [htt, hal]
      · simp [hx, htt]
  | x :: y :: ys, hok =>
    have hok' := hok
    simp only [textOk, Bool.and_eq_true, Bool.not_eq_true'] at hok'
    have htt : takeText ((x :: y :: ys) ++ r) = (x :: y :: ys, r) :=
      takeText_exact hok hnx
    rw [List.cons_append, List.cons_append, scan]
    have h1 : constructStart (x :: y :: ys) = false := hok'.1
    by_cases hx : x = '<'
    · subst hx
      have hy : ¬(y = '!') ∧ ¬(y = '?') ∧ ¬(y = '/') ∧ ¬(isAsciiAlpha y = true) := by
        by_contra hcon
        have : constructStart ('<' :: y :: ys) = true := by
          simp only [constructStart, Bool.or_eq_true, decide_eq_true_eq]
          tauto
        rw [h1] at this
        cases this
      simp only [List.cons_append] at htt
      simp [hy.1, hy.2.1, hy.2.2.1, hy.2.2.2, htt]
    · simp only [List.cons_append] at htt
      simp [hx, htt]

theorem take_two_gt {c : List Char} (h : c.take 2 ≠ ['-', '-']) :
    (c ++ ['>']).take 2 ≠ ['-', '-'] := by
  match c with
  | [] => decide
  | [x] => simp
  | x :: y :: r => simpa using h

theorem take_one_gt {c : List Char} (h : c.take 1 ≠ ['[']) :
    (c ++ ['>']).take 1 ≠ ['['] := by
  match c with
  | [] => decide
  | x :: r => simpa using h

theorem take_seven_gt {c : List Char} (h : lcs (c.take 7) ≠ "doctype".data) :
    lcs ((c ++ ['>']).take 7) ≠ "doctype".data := by
  by_cases hl : 7 ≤ c.length
  · rw [List.take_append_of_le_length hl]
    exact h
  · push_neg at hl
    intro hh
    have hlen7 : (c ++ ['>']).length ≤ 7 := by
      simp only [List.length_append, List.length_cons, List.length_nil]
      omega
    have hta : (c ++ ['>']).take 7 = c ++ ['>'] :=
      List.take_all_of_le hlen7
    rw [hta] at hh
    have hmem : '>' ∈ lcs (c ++ ['>']) := by
      have h1 : lcChar '>' ∈ (c ++ ['>']).map lcChar :=
        List.mem_map_of_mem lcChar (by simp)
      have h2 : lcChar '>' = '>' := by decide
      rw [h2] at h1
      exact h1
    rw [hh] at hmem
    exact absurd hmem (by decide)

theorem parseBang_section (r : List Char) :
    parseBang ('[' :: r) = parseSection r := by
  rw [parseBang]
  have h2 : ('[' :: r).take 2 ≠ ['-', '-'] := by simp
  have h3 : ('[' :: r).take 1 = ['['] := by simp
  rw [if_neg h2, if_pos h3]
  simp

theorem parseBang_doctype {rest : List Char} (h2 : rest.take 2 ≠ ['-', '-'])
    (h3 : rest.take 1 ≠ ['[']) (h4 : lcs (rest.take 7) = "doctype".data) :
    parseBang rest = parseDoctype rest := by
  rw [parseBang, if_neg h2, if_neg h3, if_pos h4]

theorem parseBang_bogus {rest : List Char} (h2 : rest.take 2 ≠ ['-', '-'])
    (h3 : rest.take 1 ≠ ['[']) (h4 : lcs (rest.take 7) ≠ "doctype".data) :
    parseBang rest = parseBogusComment rest := by
  rw [parseBang, if_neg h2, if_neg h3, if_neg h4]

theorem reserialize_bogus {c : List Char} (hgt : '>' ∉ c)
    (h2 : c.take 2 ≠ ['-', '-']) (h3 : c.take 1 ≠ ['['])
    (h4 : lcs (c.take 7) ≠ "doctype".data) :
    reserialize false ('<' :: '!' :: (c ++ ['>'])) =
      '<' :: '!' :: '-' :: '-' :: (c ++ '-' :: '-' :: ['>']) := by
  rw [reserialize, loads]
  have hlen : ('<' :: '!' :: (c ++ ['>'])).length = (c.length + 2) + 1 := by
    simp
  rw [hlen, scan_bang,
    parseBang_bogus (take_two_gt h2) (take_one_gt h3) (take_seven_gt h4)]
  have hft : findTerm ['>'] (c ++ ['>']) = some (c, []) := by
    have := @findTerm_clean ['>'] (by decide)
      (by intro k hk1 hk2; simp at hk2; omega) c [] (hasSub_single hgt)
    simpa using this
  rw [parseBogusComment]
  rw [hft]
  simp only [scan_nil, renderAll, List.flatMap_cons, List.flatMap_nil,
    Markup.render, List.append_nil]
  simp

theorem reserialize_section {body term' : List Char}
    (hterm : sectionTerm (body ++ term') = term')
    (ht2 : term' = ']' :: ']' :: ['>'] ∨ term' = ']' :: ['>'])
    (hsub : hasSub term' body = false) :
    reserialize false ('<' :: '!' :: '[' :: (body ++ term')) =
      '<' :: '!' :: (body ++ ['>']) := by
  rw [reserialize, loads]
  have hlen : ('<' :: '!' :: '[' :: (body ++ term')).length =
      (body.length + term'.length + 2) + 1 := by
    simp
  rw [hlen, scan_bang, parseBang_section]
  have hne : term' ≠ [] := by
    rcases ht2 with h | h <;> simp [h]
  have hov : ∀ k, 0 < k → k < term'.length →
      term'.drop k ≠ term'.take (term'.length - k) := by
    rcases ht2 with h | h <;> subst h <;>
      (intro k hk1 hk2 <;> simp only [List.length_cons, List.length_nil] at hk2 <;>
        interval_cases k <;> decide)
  have hft : findTerm term' (body ++ term') = some (body, []) := by
    have := findTerm_clean hne hov body [] hsub
    simpa using this
  rw [parseSection]
  rw [hterm, hft]
  simp only [scan_nil, renderAll, List.flatMap_cons, List.flatMap_nil,
    Markup.render, List.append_nil]
  simp

/-- C7: on reserialization (raw source cleared) an unrecognized
declaration `<!something>` renders as the HTML comment `<!--something-->`,
while a recognized CDATA marked section `<![CDATA[x]]>` or downlevel
conditional `<![if c]>` renders with the outer bracket syntax stripped
down to a plain `<!...>` construct (`<!CDATA[x>`, `<!if c>`). -/
theorem declaration_reserialization :
    (∀ c : List Char, '>' ∉ c → c.take 2 ≠ ['-', '-'] → c.take 1 ≠ ['['] →
      lcs (c.take 7) ≠ "doctype".data →
      reserialize false ('<' :: '!' :: (c ++ ['>'])) =
        '<' :: '!' :: '-' :: '-' :: (c ++ '-' :: '-' :: ['>'])) ∧
    (∀ x : List Char,
      hasSub (']' :: ']' :: ['>']) ("CDATA[".data ++ x) = false →
      reserialize false ("<![CDATA[".data ++ x ++ "]]>".data) =
        "<!CDATA[".data ++ x ++ ['>']) ∧
    (∀ c : List Char, hasSub (']' :: ['>']) ("if ".data ++ c) = false →
      reserialize false ("<![if ".data ++ c ++ "]>".data) =
        "<!if ".data ++ c ++ ['>']) := by
  refine ⟨fun c h1 h2 h3 h4 => reserialize_bogus h1 h2 h3 h4, ?_, ?_⟩
  · intro x hsub
    have h := @reserialize_section ("CDATA[".data ++ x) (']' :: ']' :: ['>'])
      (by rfl) (Or.inl rfl) hsub
    exact h
  · intro c hsub
    have h := @reserialize_section ("if ".data ++ c) (']' :: ['>'])
      (by rfl) (Or.inr rfl) hsub
    exact h

theorem declaration_reserialization_witness :
    reserialize false ('<' :: '!' :: ("UNKONWN decl".data ++ ['>'])) =
      '<' :: '!' :: '-' :: '-' :: ("UNKONWN decl".data ++ '-' :: '-' :: ['>']) ∧
    reserialize false ("<![CDATA[".data ++ ['x'] ++ "]]>".data) =
      "<!CDATA[".data ++ ['x'] ++ ['>'] ∧
    reserialize false ("<![if ".data ++ ['c'] ++ "]>".data) =
      "<!if ".data ++ ['c'] ++ ['>'] :=
  ⟨declaration_reserialization.1 "UNKONWN decl".data (by decide) (by decide)
      (by decide) (by decide),
   declaration_reserialization.2.1 ['x'] (by decide),
   declaration_reserialization.2.2 ['c'] (by decide)⟩

/-- C6 counterexample: reserialization is not a fixed point.  `<br>`
reserializes to `<br></br>` (the synthesized hidden end tag
materializes), and reserializing that yields `<br></br></br>`: the
explicit `</br>` re-parses as an end-tag token while the void start tag
synthesizes a fresh hidden end tag again. -/
theorem reserialize_not_fixed_point :
    reserialize false "<br>".data = "<br></br>".data ∧
    reserialize false "<br></br>".data = "<br></br></br>".data ∧
    reserialize false (reserialize false "<br>".data) ≠
      reserialize false "<br>".data := by
  exact ⟨by decide, by decide, by decide⟩

/-! ## Reserialization as a fixed point on plain-token streams -/

/-- Plain tokens: text, comment, declaration, processing instruction. -/
def plainTok (m : Markup) : Bool :=
  match m.data with
  | .text _ => true
  | .comment _ => true
  | .decl _ => true
  | .pi _ => true
  | _ => false

/-- Whether the token is a text token. -/
def isTextTok (m : Markup) : Bool :=
  match m.data with
  | .text _ => true
  | _ => false

/-- Content well-formedness guaranteed by the tokenizer for plain tokens:
rendering and re-scanning reproduces the token boundary. -/
def wfPlain (m : Markup) : Bool :=
  match m.data with
  | .text c => textOk c
  | .comment c => !hasSub ('-' :: '-' :: ['>']) c
  | .decl c => decide (lcs (c.take 7) = "doctype".data) && !decide ('>' ∈ c.drop 7)
  | .pi c => !decide ('>' ∈ c)
  | _ => true

/-- No two adjacent text tokens in the stream. -/
def streamOk : List Markup → Bool
  | [] => true
  | [_] => true
  | m :: m2 :: rest => !(isTextTok m && isTextTok m2) && streamOk (m2 :: rest)

theorem streamOk_cons {m : Markup} (hm : isTextTok m = false)
    {ms : List Markup} (h : streamOk ms = true) : streamOk (m :: ms) = true := by
  cases ms with
  | nil => rfl
  | cons m2 r =>
    rw [streamOk, hm]
    simp [h]

theorem streamOk_tail {m : Markup} {ms : List Markup}
    (h : streamOk (m :: ms) = true) : streamOk ms = true := by
  cases ms with
  | nil => rfl
  | cons m2 r =>
    rw [streamOk, Bool.and_eq_true] at h
    exact h.2

theorem hasSub_of_mem {x : Char} {l : List Char} (h : x ∈ l) :
    hasSub [x] l = true := by
  induction l with
  | nil => cases h
  | cons c rest ih =>
    rw [hasSub]
    rcases List.mem_cons.1 h with h1 | h2
    · subst h1
      have hp : ([x]).isPrefixOf (x :: rest) = true := by simp [List.isPrefixOf]
      rw [hp]
      rfl
    · rw [ih h2]
      simp

theorem not_mem_of_not_sub {x : Char} {l : List Char}
    (h : hasSub [x] l = false) : x ∉ l := by
  intro hm
  rw [hasSub_of_mem hm] at h
  cases h

theorem not_sub_of_not_mem {t l : List Char} {x : Char} (hx : x ∈ t)
    (h : x ∉ l) : hasSub t l = false := by
  cases hb : hasSub t l with
  | false => rfl
  | true => exact absurd (hasSub_mem hb hx) h

theorem parseComment_data (r : List Char) :
    ∃ c, ((parseComment r).1).data = MarkupData.comment c ∧
      hasSub ('-' :: '-' :: ['>']) c = false := by
  rw [parseComment]
  cases hf : findTerm ['-', '-', '>'] r with
  | none => exact ⟨r, rfl, findTerm_none_not_sub (by decide) hf⟩
  | some ps =>
    obtain ⟨pre, suf⟩ := ps
    exact ⟨pre, rfl, findTerm_pre_not_sub (by decide) hf⟩

theorem parseBogusComment_data (r : List Char) :
    ∃ c, ((parseBogusComment r).1).data = MarkupData.comment c ∧
      hasSub ('-' :: '-' :: ['>']) c = false := by
  rw [parseBogusComment]
  cases hf : findTerm ['>'] r with
  | none =>
    refine ⟨r, rfl, not_sub_of_not_mem (x := '>') (by decide) ?_⟩
    exact not_mem_of_not_sub (findTerm_none_not_sub (by decide) hf)
  | some ps =>
    obtain ⟨pre, suf⟩ := ps
    refine ⟨pre, rfl, not_sub_of_not_mem (x := '>') (by decide) ?_⟩
    exact not_mem_of_not_sub (findTerm_pre_not_sub (by decide) hf)

theorem parseSection_data (r : List Char) :
    ∃ c, ((parseSection r).1).data = MarkupData.markedSection c := by
  rw [parseSection]
  cases hf : findTerm (sectionTerm r) r with
  | none => exact ⟨r, rfl⟩
  | some ps =>
    obtain ⟨pre, suf⟩ := ps
    exact ⟨pre, rfl⟩

theorem parseDoctype_data {rest : List Char}
    (h : lcs (rest.take 7) = "doctype".data) :
    ∃ c, ((parseDoctype rest).1).data = MarkupData.decl c ∧
      lcs (c.take 7) = "doctype".data ∧ '>' ∉ c.drop 7 := by
  have hlen : (rest.take 7).length = 7 := by
    have := congrArg List.length h
    simpa [lcs] using this
  rw [parseDoctype]
  cases hf : findTerm ['>'] (rest.drop 7) with
  | none =>
    exact ⟨rest, rfl, h,
      not_mem_of_not_sub (findTerm_none_not_sub (by decide) hf)⟩
  | some ps =>
    obtain ⟨pre, suf⟩ := ps
    refine ⟨rest.take 7 ++ pre, rfl, ?_, ?_⟩
    · rw [List.take_append_of_le_length (le_of_eq hlen.symm), List.take_take]
      simpa using h
    · rw [List.drop_append_of_le_length (le_of_eq hlen.symm)]
      have hdz : (rest.take 7).drop 7 = [] := List.drop_eq_nil_of_le (by rw [hlen])
      rw [hdz, List.nil_append]
      exact not_mem_of_not_sub (findTerm_pre_not_sub (by decide) hf)

theorem parsePI_data (r : List Char) :
    ∃ c, ((parsePI r).1).data = MarkupData.pi c ∧ '>' ∉ c := by
  rw [parsePI]
  cases hf : findTerm ['>'] r with
  | none =>
    exact ⟨r, rfl, not_mem_of_not_sub (findTerm_none_not_sub (by decide) hf)⟩
  | some ps =>
    obtain ⟨pre, suf⟩ := ps
    exact ⟨pre, rfl, not_mem_of_not_sub (findTerm_pre_not_sub (by decide) hf)⟩

theorem parseBang_comment (r : List Char) :
    parseBang ('-' :: '-' :: r) = parseComment r := by
  rw [parseBang]
  simp

theorem parseBang_props (rest : List Char) :
    isTextTok (parseBang rest).1 = false ∧
    (plainTok (parseBang rest).1 = true → wfPlain (parseBang rest).1 = true) := by
  rw [parseBang]
  by_cases h2 : rest.take 2 = ['-', '-']
  · rw [if_pos h2]
    obtain ⟨c, hc, hsub⟩ := parseComment_data (rest.drop 2)
    exact ⟨by simp [isTextTok, hc], fun _ => by simp [wfPlain, hc, hsub]⟩
  · rw [if_neg h2]
    by_cases h3 : rest.take 1 = ['[']
    · rw [if_pos h3]
      obtain ⟨c, hc⟩ := parseSection_data (rest.drop 1)
      rw [List.drop_one] at hc
      exact ⟨by simp [isTextTok, hc], fun hpl => by simp [plainTok, hc] at hpl⟩
    · rw [if_neg h3]
      by_cases h4 : lcs (rest.take 7) = "doctype".data
      · rw [if_pos h4]
        obtain ⟨c, hc, hd1, hd2⟩ := parseDoctype_data h4
        exact ⟨by simp [isTextTok, hc], fun _ => by simp [wfPlain, hc, hd1, hd2]⟩
      · rw [if_neg h4]
        obtain ⟨c, hc, hsub⟩ := parseBogusComment_data rest
        exact ⟨by simp [isTextTok, hc], fun _ => by simp [wfPlain, hc, hsub]⟩

theorem parsePI_props (rest : List Char) :
    isTextTok (parsePI rest).1 = false ∧
    (plainTok (parsePI rest).1 = true → wfPlain (parsePI rest).1 = true) := by
  obtain ⟨c, hc, hm⟩ := parsePI_data rest
  exact ⟨by simp [isTextTok, hc], fun _ => by simp [wfPlain, hc, hm]⟩

theorem parseEnd_not_text (xhtml : Bool) (fg : Option (List Char × Nat))
    (rest : List Char) :
    isTextTok (parseEnd xhtml fg rest).1 = false ∧
    plainTok (parseEnd xhtml fg rest).1 = false := by
  rw [parseEnd.eq_def]
  cases hf : findTerm ['>'] (rest.dropWhile isNameChar) with
  | none => exact ⟨rfl, rfl⟩
  | some ps =>
    obtain ⟨pre, suf⟩ := ps
    exact ⟨rfl, rfl⟩

theorem parseStart_head (xhtml : Bool) (fg : Option (List Char × Nat))
    (rest : List Char) :
    ∃ m tl, (parseStart xhtml fg rest).1 = m :: tl ∧
      isTextTok m = false ∧ plainTok m = false := by
  rw [parseStart]
  rcases hpa : parseAttrs (rest.length + 1) (rest.dropWhile isNameChar) with
    ⟨attrs, selfEnd, con, rest1⟩
  simp only [hpa]
  by_cases hraw : fg = none ∧ lcs (rest.takeWhile isNameChar) ∈ rawTextElems ∧
      selfEnd = false
  · simp only [hraw, if_pos]
    rcases hrs : rawSplit (lcs (rest.takeWhile isNameChar)) rest1 with ⟨pre, suf⟩
    by_cases hpre : pre = []
    · simp only [hpre, if_pos]
      exact ⟨_, _, rfl, rfl, rfl⟩
    · simp only [hpre, if_neg, not_false_iff]
      exact ⟨_, _, rfl, rfl, rfl⟩
  · simp only [hraw, if_neg, not_false_iff]
    exact ⟨_, _, rfl, rfl, rfl⟩

theorem scan_head_not_text {suf : List Char} (h : constructStart suf = true)
    (fuel : Nat) (fg : Option (List Char × Nat)) :
    scan false fuel fg suf = [] ∨
    ∃ m tl, scan false fuel fg suf = m :: tl ∧ isTextTok m = false := by
  cases fuel with
  | zero => exact Or.inl rfl
  | succ f =>
    rcases constructStart_true_shape h with ⟨d, rr, hsh, hd⟩
    subst hsh
    rw [scan]
    rcases hd with hd | hd | hd | hd
    · subst hd
      rcases hpb : parseBang rr with ⟨tok, r1⟩
      refine Or.inr ⟨tok, scan false f fg r1, by simp [hpb], ?_⟩
      have := (parseBang_props rr).1
      rw [hpb] at this
      exact this
    · subst hd
      rcases hpb : parsePI rr with ⟨tok, r1⟩
      refine Or.inr ⟨tok, scan false f fg r1, by simp [hpb], ?_⟩
      have := (parsePI_props rr).1
      rw [hpb] at this
      exact this
    · subst hd
      rcases hpb : parseEnd false fg rr with ⟨tok, fg1, r1⟩
      refine Or.inr ⟨tok, scan false f fg1 r1, by simp [hpb], ?_⟩
      have := (parseEnd_not_text false fg rr).1
      rw [hpb] at this
      exact this
    · obtain ⟨m, tl, hps, hm1, hm2⟩ := parseStart_head false fg (d :: rr)
      rcases hpb : parseStart false fg (d :: rr) with ⟨toks, fg1, r1⟩
      rw [hpb] at hps
      simp only at hps
      subst hps
      have hd1 : ¬(d = '!') := by
        intro he
        subst he
        exact absurd hd (by decide)
      have hd2 : ¬(d = '?') := by
        intro he
        subst he
        exact absurd hd (by decide)
      have hd3 : ¬(d = '/') := by
        intro he
        subst he
        exact absurd hd (by decide)
      refine Or.inr ⟨m, tl ++ scan false f fg1 r1, ?_, hm1⟩
      simp [hd1, hd2, hd3, hd, hpb]

theorem scan_plain_wf : ∀ (fuel : Nat) (fg : Option (List Char × Nat))
    (cs : List Char), (scan false fuel fg cs).all plainTok = true →
    (scan false fuel fg cs).all wfPlain = true ∧
    streamOk (scan false fuel fg cs) = true := by
  intro fuel
  induction fuel with
  | zero => exact fun fg cs _ => ⟨rfl, rfl⟩
  | succ fuel ih =>
    intro fg cs h
    match cs with
    | [] => exact ⟨rfl, rfl⟩
    | [c] => exact ⟨by simp [scan, wfPlain, textOk], rfl⟩
    | c :: c2 :: rest =>
      rw [scan] at h ⊢
      by_cases hc : c = '<'
      · subst hc
        by_cases hb : c2 = '!'
        · subst hb
          rcases hpb : parseBang rest with ⟨tok, rest1⟩
          simp only [hpb] at h ⊢
          simp only [if_pos, List.all_cons, Bool.and_eq_true] at h ⊢
          obtain ⟨hp1, hp2⟩ := h
          obtain ⟨hwf, hso⟩ := ih fg rest1 hp2
          have hprops := parseBang_props rest
          rw [hpb] at hprops
          simp only at hprops
          refine ⟨⟨hprops.2 hp1, hwf⟩, streamOk_cons hprops.1 hso⟩
        · by_cases hq : c2 = '?'
          · subst hq
            rcases hpb : parsePI rest with ⟨tok, rest1⟩
            simp only [hb, hpb] at h ⊢
            simp only [if_neg, if_pos, not_false_iff, List.all_cons,
              Bool.and_eq_true] at h ⊢
            obtain ⟨hp1, hp2⟩ := h
            obtain ⟨hwf, hso⟩ := ih fg rest1 hp2
            have hprops := parsePI_props rest
            rw [hpb] at hprops
            simp only at hprops
            refine ⟨⟨hprops.2 hp1, hwf⟩, streamOk_cons hprops.1 hso⟩
          · by_cases hsl : c2 = '/'
            · subst hsl
              rcases hpb : parseEnd false fg rest with ⟨tok, fg1, rest1⟩
              simp only [hb, hq, hpb] at h ⊢
              simp only [if_neg, if_pos, not_false_iff, List.all_cons,
                Bool.and_eq_true] at h ⊢
              obtain ⟨hp1, hp2⟩ := h
              have hnp := (parseEnd_not_text false fg rest).2
              rw [hpb] at hnp
              simp only at hnp
              rw [hnp] at hp1
              cases hp1
            · by_cases hal : isAsciiAlpha c2 = true
              · obtain ⟨m, tl, hps, hm1, hm2⟩ := parseStart_head false fg (c2 :: rest)
                rcases hpb : parseStart false fg (c2 :: rest) with ⟨toks, fg1, rest1⟩
                rw [hpb] at hps
                simp only at hps
                subst hps
                simp only [hb, hq, hsl, hal, hpb, if_neg, if_pos,
                  not_false_iff, List.cons_append, List.all_cons,
                  Bool.and_eq_true] at h ⊢
                rw [hm2] at h
                exact absurd h.1 (by simp)
              · have hct : constructStart ('<' :: c2 :: rest) = false := by
                  simp [constructStart, hb, hq, hsl, hal]
                rcases htt : takeText ('<' :: c2 :: rest) with ⟨pre, suf⟩
                simp only [hb, hq, hsl, hal, htt, if_neg, not_false_iff, if_true,
                  Bool.false_eq_true, if_false, eq_self_iff_true] at h ⊢
                have hp2 : (scan false fuel fg suf).all plainTok = true := by
                  rw [List.all_cons, Bool.and_eq_true] at h
                  exact h.2
                obtain ⟨hwf, hso⟩ := ih fg suf hp2
                have hne : pre ≠ [] := by
                  have h0 := @takeText_fst_ne ('<' :: c2 :: rest) (by simp)
                    (by simp [hct])
                  rw [htt] at h0
                  simpa using h0
                have hok := takeText_textOk htt hne
                have hso2 : streamOk (Markup.mk (MarkupData.text pre) false
                    (some pre) :: scan false fuel fg suf) = true := by
                  have hnx := takeText_nextOk htt
                  rw [nextOk, Bool.or_eq_true] at hnx
                  rcases hnx with hnx | hnx
                  · rw [List.isEmpty_iff] at hnx
                    subst hnx
                    rw [scan_nil]
                    rfl
                  · rcases scan_head_not_text hnx fuel fg with
                      hemp | ⟨m, tl, hse, hmt⟩
                    · rw [hemp]
                      rfl
                    · rw [hse]
                      rw [hse] at hso
                      simp [streamOk, hmt, hso]
                constructor
                · rw [List.all_cons, Bool.and_eq_true]
                  exact ⟨by simp [wfPlain, hok], hwf⟩
                · exact hso2
      · have hct : constructStart (c :: c2 :: rest) = false := by
          simp [constructStart, hc]
        rcases htt : takeText (c :: c2 :: rest) with ⟨pre, suf⟩
        simp only [hc, htt, if_neg, not_false_iff, if_true,
          Bool.false_eq_true, if_false, eq_self_iff_true] at h ⊢
        have hp2 : (scan false fuel fg suf).all plainTok = true := by
          rw [List.all_cons, Bool.and_eq_true] at h
          exact h.2
        obtain ⟨hwf, hso⟩ := ih fg suf hp2
        have hne : pre ≠ [] := by
          have h0 := @takeText_fst_ne (c :: c2 :: rest) (by simp) (by simp [hct])
          rw [htt] at h0
          simpa using h0
        have hok := takeText_textOk htt hne
        have hso2 : streamOk (Markup.mk (MarkupData.text pre) false
            (some pre) :: scan false fuel fg suf) = true := by
          have hnx := takeText_nextOk htt
          rw [nextOk, Bool.or_eq_true] at hnx
          rcases hnx with hnx | hnx
          · rw [List.isEmpty_iff] at hnx
            subst hnx
            rw [scan_nil]
            rfl
          · rcases scan_head_not_text hnx fuel fg with hemp | ⟨m, tl, hse, hmt⟩
            · rw [hemp]
              rfl
            · rw [hse]
              rw [hse] at hso
              simp [streamOk, hmt, hso]
        constructor
        · rw [List.all_cons, Bool.and_eq_true]
          exact ⟨by simp [wfPlain, hok], hwf⟩
        · exact hso2

theorem renderAll_nil : renderAll [] = [] := rfl

theorem renderAll_cons (m : Markup) (ms : List Markup) :
    renderAll (m :: ms) = m.render ++ renderAll ms := by
  simp [renderAll]

theorem render_construct {m : Markup} (hp : plainTok m = true)
    (ht : isTextTok m = false) (R : List Char) :
    constructStart (m.render ++ R) = true := by
  rcases m with ⟨data, hid, src⟩
  cases data with
  | text c => simp [isTextTok] at ht
  | comment c => rfl
  | decl c => rfl
  | markedSection c => simp [plainTok] at hp
  | pi c => rfl
  | starttag t => simp [plainTok] at hp
  | endtag t => simp [plainTok] at hp

theorem doctype_head {c : List Char} (h : lcs (c.take 7) = "doctype".data) :
    ∃ c0 ctl, c = c0 :: ctl ∧ lcChar c0 = 'd' ∧ 7 ≤ c.length := by
  have hlen : (c.take 7).length = 7 := by
    have := congrArg List.length h
    simpa [lcs] using this
  have hcl : 7 ≤ c.length := by
    rw [List.length_take] at hlen
    omega
  cases c with
  | nil => simp at hcl
  | cons c0 ctl =>
    refine ⟨c0, ctl, rfl, ?_, hcl⟩
    have h7 : (c0 :: ctl).take 7 = c0 :: ctl.take 6 := rfl
    rw [h7] at h
    have hmap : lcs (c0 :: ctl.take 6) = lcChar c0 :: lcs (ctl.take 6) := rfl
    rw [hmap] at h
    have hd : "doctype".data = 'd' :: "octype".data := rfl
    rw [hd] at h
    exact (List.cons.injEq .. ▸ h).1

theorem scan_comment {c : List Char}
    (hsub : hasSub ('-' :: '-' :: ['>']) c = false) (R : List Char)
    (fuel : Nat) (fg : Option (List Char × Nat)) :
    scan false (fuel + 1) fg
        (('<' :: '!' :: '-' :: '-' :: c ++ '-' :: '-' :: ['>']) ++ R) =
      Markup.mk (MarkupData.comment c) false
          (some ('<' :: '!' :: '-' :: '-' :: c ++ '-' :: '-' :: ['>'])) ::
        scan false fuel fg R := by
  have hshape : ('<' :: '!' :: '-' :: '-' :: c ++ '-' :: '-' :: ['>']) ++ R =
      '<' :: '!' :: ('-' :: '-' :: (c ++ ('-' :: '-' :: ['>']) ++ R)) := by
    simp
  rw [hshape, scan_bang, parseBang_comment]
  have hft : findTerm ['-', '-', '>'] (c ++ ('-' :: '-' :: ['>']) ++ R) =
      some (c, R) := by
    refine findTerm_clean (by decide) ?_ c R hsub
    intro k h1 h2
    simp only [List.length_cons, List.length_nil] at h2
    interval_cases k <;> decide
  rw [parseComment, hft]

theorem scan_decl {c : List Char} (hdt : lcs (c.take 7) = "doctype".data)
    (hgt : '>' ∉ c.drop 7) (R : List Char) (fuel : Nat)
    (fg : Option (List Char × Nat)) :
    scan false (fuel + 1) fg (('<' :: '!' :: c ++ ['>']) ++ R) =
      Markup.mk (MarkupData.decl c) false (some ('<' :: '!' :: c ++ ['>'])) ::
        scan false fuel fg R := by
  obtain ⟨c0, ctl, hc0, hld, hcl⟩ := doctype_head hdt
  have hshape : ('<' :: '!' :: c ++ ['>']) ++ R =
      '<' :: '!' :: (c ++ ['>'] ++ R) := by
    simp
  rw [hshape, scan_bang]
  have h2 : (c ++ ['>'] ++ R).take 2 ≠ ['-', '-'] := by
    intro hh
    rw [hc0] at hh
    have h20 : ((c0 :: (ctl ++ ['>'] ++ R))).take 2 =
        c0 :: (ctl ++ ['>'] ++ R).take 1 := rfl
    rw [List.cons_append, List.cons_append] at hh
    rw [h20] at hh
    have hc0d : c0 = '-' := (List.cons.injEq .. ▸ hh).1
    rw [hc0d] at hld
    exact absurd hld (by decide)
  have h3 : (c ++ ['>'] ++ R).take 1 ≠ ['['] := by
    intro hh
    rw [hc0] at hh
    have h10 : ((c0 :: (ctl ++ ['>'] ++ R))).take 1 = [c0] := rfl
    rw [List.cons_append, List.cons_append] at hh
    rw [h10] at hh
    have hc0d : c0 = '[' := (List.cons.injEq .. ▸ hh).1
    rw [hc0d] at hld
    exact absurd hld (by decide)
  have h4 : lcs ((c ++ ['>'] ++ R).take 7) = "doctype".data := by
    rw [List.append_assoc, List.take_append_of_le_length hcl]
    exact hdt
  rw [parseBang_doctype h2 h3 h4]
  rw [parseDoctype]
  have hdrop : (c ++ ['>'] ++ R).drop 7 = c.drop 7 ++ ['>'] ++ R := by
    rw [List.append_assoc, List.drop_append_of_le_length hcl, List.append_assoc]
  have htake : (c ++ ['>'] ++ R).take 7 = c.take 7 := by
    rw [List.append_assoc, List.take_append_of_le_length hcl]
  have hft : findTerm ['>'] (c.drop 7 ++ ['>'] ++ R) = some (c.drop 7, R) := by
    refine findTerm_clean (by decide) ?_ (c.drop 7) R (hasSub_single hgt)
    intro k h1 hlt
    simp only [List.length_cons, List.length_nil] at hlt
    omega
  rw [hdrop, hft, htake]
  simp only [List.take_append_drop]

theorem scan_pi_tok {c : List Char} (hgt : '>' ∉ c) (R : List Char)
    (fuel : Nat) (fg : Option (List Char × Nat)) :
    scan false (fuel + 1) fg (('<' :: '?' :: c ++ ['>']) ++ R) =
      Markup.mk (MarkupData.pi c) false (some ('<' :: '?' :: c ++ ['>'])) ::
        scan false fuel fg R := by
  have hshape : ('<' :: '?' :: c ++ ['>']) ++ R =
      '<' :: '?' :: (c ++ ['>'] ++ R) := by
    simp
  rw [hshape, scan_pi]
  have hft : findTerm ['>'] (c ++ ['>'] ++ R) = some (c, R) := by
    refine findTerm_clean (by decide) ?_ c R (hasSub_single hgt)
    intro k h1 hlt
    simp only [List.length_cons, List.length_nil] at hlt
    omega
  rw [parsePI, hft]

theorem relex_spec : ∀ (ms : List Markup) (fuel : Nat),
    (renderAll ms).length ≤ fuel →
    ms.all (fun m => plainTok m && wfPlain m) = true →
    streamOk ms = true → ∀ fg : Option (List Char × Nat),
    renderAll (scan false fuel fg (renderAll ms)) = renderAll ms := by
  intro ms
  induction ms with
  | nil =>
    intro fuel _ _ _ fg
    rw [renderAll_nil, scan_nil, renderAll_nil]
  | cons m rest ih =>
    intro fuel hfu hall hso fg
    rw [List.all_cons, Bool.and_eq_true, Bool.and_eq_true] at hall
    obtain ⟨⟨hmp, hmw⟩, hrest⟩ := hall
    rw [renderAll_cons] at hfu ⊢
    rcases m with ⟨data, hid, src⟩
    cases data with
    | text c =>
      have hok : textOk c = true := by simpa [wfPlain] using hmw
      have hrend : (Markup.mk (MarkupData.text c) hid src).render = c := rfl
      rw [hrend] at hfu ⊢
      have hcne : c ≠ [] := by
        intro he
        rw [he] at hok
        cases hok
      have hnx : nextOk (renderAll rest) = true := by
        cases rest with
        | nil => rfl
        | cons m2 r2 =>
          have hp2 : plainTok m2 = true := by
            rw [List.all_cons, Bool.and_eq_true, Bool.and_eq_true] at hrest
            exact hrest.1.1
          have ht2 : isTextTok m2 = false := by
            have hso' := hso
            simp only [streamOk, Bool.and_eq_true] at hso'
            have hmt : isTextTok (Markup.mk (MarkupData.text c) hid src) = true :=
              rfl
            rw [hmt] at hso'
            have h1 := hso'.1
            simpa using h1
          rw [renderAll_cons, nextOk, render_construct hp2 ht2 (renderAll r2)]
          simp
      cases fuel with
      | zero =>
        exfalso
        have hp1 : 1 ≤ c.length := List.length_pos.2 hcne
        simp only [List.length_append] at hfu
        omega
      | succ f =>
        rw [scan_text hok hnx false f fg, renderAll_cons]
        have hfu2 : (renderAll rest).length ≤ f := by
          have hp1 : 1 ≤ c.length := List.length_pos.2 hcne
          simp only [List.length_append] at hfu
          omega
        rw [ih f hfu2 hrest (streamOk_tail hso) fg]
        rfl
    | comment c =>
      have hsub : hasSub ('-' :: '-' :: ['>']) c = false := by
        simpa [wfPlain] using hmw
      have hrend : (Markup.mk (MarkupData.comment c) hid src).render =
          '<' :: '!' :: '-' :: '-' :: c ++ '-' :: '-' :: ['>'] := rfl
      rw [hrend] at hfu ⊢
      cases fuel with
      | zero =>
        exfalso
        simp only [List.length_append, List.length_cons] at hfu
        omega
      | succ f =>
        rw [scan_comment hsub (renderAll rest) f fg, renderAll_cons]
        have hfu2 : (renderAll rest).length ≤ f := by
          simp only [List.length_append, List.length_cons] at hfu
          omega
        rw [ih f hfu2 hrest (streamOk_tail hso) fg]
        rfl
    | decl c =>
      have hw : lcs (c.take 7) = "doctype".data ∧ '>' ∉ c.drop 7 := by
        simpa [wfPlain] using hmw
      have hrend : (Markup.mk (MarkupData.decl c) hid src).render =
          '<' :: '!' :: c ++ ['>'] := rfl
      rw [hrend] at hfu ⊢
      cases fuel with
      | zero =>
        exfalso
        simp only [List.length_append, List.length_cons] at hfu
        omega
      | succ f =>
        rw [scan_decl hw.1 hw.2 (renderAll rest) f fg, renderAll_cons]
        have hfu2 : (renderAll rest).length ≤ f := by
          simp only [List.length_append, List.length_cons] at hfu
          omega
        rw [ih f hfu2 hrest (streamOk_tail hso) fg]
        rfl
    | markedSection c => simp [plainTok] at hmp
    | pi c =>
      have hgt : '>' ∉ c := by
        simpa [wfPlain] using hmw
      have hrend : (Markup.mk (MarkupData.pi c) hid src).render =
          '<' :: '?' :: c ++ ['>'] := rfl
      rw [hrend] at hfu ⊢
      cases fuel with
      | zero =>
        exfalso
        simp only [List.length_append, List.length_cons] at hfu
        omega
      | succ f =>
        rw [scan_pi_tok hgt (renderAll rest) f fg, renderAll_cons]
        have hfu2 : (renderAll rest).length ≤ f := by
          simp only [List.length_append, List.length_cons] at hfu
          omega
        rw [ih f hfu2 hrest (streamOk_tail hso) fg]
        rfl
    | starttag t => simp [plainTok] at hmp
    | endtag t => simp [plainTok] at hmp

/-- C6 (amended): reserialization is not a fixed point in general, but it
is on streams free of tags and marked sections — for every markup string
whose token stream contains only text, comment, declaration and
processing-instruction tokens, reserializing the reserialized form
yields it unchanged. -/
theorem reserialize_fixed_point_fragment (s : String)
    (h : (loads false s.data).all plainTok = true) :
    reserialize false (reserialize false s.data) = reserialize false s.data := by
  obtain ⟨hwf, hso⟩ := scan_plain_wf s.data.length none s.data h
  have hall : (loads false s.data).all
      (fun m => plainTok m && wfPlain m) = true := by
    rw [List.all_eq_true] at h hwf ⊢
    intro m hm
    rw [Bool.and_eq_true]
    exact ⟨h m hm, hwf m hm⟩
  exact relex_spec (loads false s.data)
    (renderAll (loads false s.data)).length le_rfl hall hso none

theorem reserialize_fixed_point_fragment_witness :
    reserialize false (reserialize false "x<!--c--><!DOCTYPE html><?pi?>".data) =
      reserialize false "x<!--c--><!DOCTYPE html><?pi?>".data :=
  reserialize_fixed_point_fragment "x<!--c--><!DOCTYPE html><?pi?>" (by decide)
